import Mathlib

/-!
Verification of the fork-aware snapshot manager (`sov-fork-manager`) and the
witness replay log (`sov-state/witness.rs`) of the sovereign-sdk repository.

The Rust code is shallowly embedded as follows.

* `HashMap<K, V>` becomes `Map K V`, an association list whose `insert`
  overwrites the previous binding and whose `erase` removes it.  Only
  `lookup`, `insert`, `erase`/`remove`, and `is_empty` are used by the code,
  so the embedding proves exactly the lookup equations these operations
  satisfy.
* `Da::SlotHash`, `SnapshotId`, `StorageKey` and `StorageValue` are opaque in
  the code and become `Nat`.
* The snapshot type is the `MockSnapshot` of the crate's own test module: an
  id plus two key/value caches, with `get_storage_value` /
  `get_accessory_value` looking up the corresponding cache.
* Methods taking `&mut self` become functions returning the new manager.  A
  Rust panic (`assert!`, `expect`, `unwrap`) is represented by
  `Except.error s` where `s` is the manager state at the moment of the
  panic, so that partially-applied mutations preceding a panic stay
  observable; `Except.ok` is the normal return.
* The database handles (`StateDB`, `NativeDB`) are modelled by a `committed`
  list of snapshots (the write batches shipped to the store, in commit
  order) and a `version` counter (`inc_next_version`).
-/

/-- Association map with `HashMap`-style operations. `insert` removes any
previous binding of the key before prepending the new one. -/
structure Map (α β : Type) where
  entries : List (α × β)
deriving DecidableEq

namespace Map

variable {α β : Type} [DecidableEq α]

/-- `HashMap::get`. -/
def lookup (m : Map α β) (k : α) : Option β :=
  (m.entries.find? (fun e => decide (e.1 = k))).map (fun e => e.2)

/-- Remove every binding of `k` (`HashMap::remove` discards the value). -/
def erase (m : Map α β) (k : α) : Map α β :=
  ⟨m.entries.filter (fun e => decide (e.1 ≠ k))⟩

/-- `HashMap::insert` (the returned previous value is read via `lookup`
before inserting, where the code uses it). -/
def insert (m : Map α β) (k : α) (v : β) : Map α β :=
  ⟨(k, v) :: (m.erase k).entries⟩

/-- `HashMap::is_empty`. -/
def isEmpty (m : Map α β) : Bool :=
  m.entries.isEmpty

/-- Number of stored bindings, used only to bound walks. -/
def size (m : Map α β) : Nat :=
  m.entries.length

theorem find_key_filter_self (l : List (α × β)) (k : α) :
    (l.filter (fun e => decide (e.1 ≠ k))).find? (fun e => decide (e.1 = k)) = none := by
  induction l with
  | nil => rfl
  | cons e t ih =>
    by_cases h : e.1 = k
    · rw [List.filter_cons_of_neg (by simp [h])]
      exact ih
    · rw [List.filter_cons_of_pos (by simp [h]), List.find?_cons_of_neg _ (by simp [h])]
      exact ih

theorem find_key_filter_other (l : List (α × β)) (k k' : α) (h : k' ≠ k) :
    (l.filter (fun e => decide (e.1 ≠ k))).find? (fun e => decide (e.1 = k')) =
      l.find? (fun e => decide (e.1 = k')) := by
  induction l with
  | nil => rfl
  | cons e t ih =>
    by_cases hek : e.1 = k
    · have hek' : ¬ e.1 = k' := by
        intro hc
        rw [hc] at hek
        exact h hek
      rw [List.filter_cons_of_neg (by simp [hek]), List.find?_cons_of_neg _ (by simp [hek'])]
      exact ih
    · by_cases hek' : e.1 = k'
      · rw [List.filter_cons_of_pos (by simp [hek]), List.find?_cons_of_pos _ (by simp [hek']),
          List.find?_cons_of_pos _ (by simp [hek'])]
      · rw [List.filter_cons_of_pos (by simp [hek]), List.find?_cons_of_neg _ (by simp [hek']),
          List.find?_cons_of_neg _ (by simp [hek'])]
        exact ih

theorem lookup_erase_self (m : Map α β) (k : α) :
    (m.erase k).lookup k = none := by
  unfold lookup erase
  rw [find_key_filter_self]
  rfl

theorem lookup_erase_ne (m : Map α β) (k k' : α) (h : k' ≠ k) :
    (m.erase k).lookup k' = m.lookup k' := by
  unfold lookup erase
  rw [find_key_filter_other _ _ _ h]

theorem lookup_insert_self (m : Map α β) (k : α) (v : β) :
    (m.insert k v).lookup k = some v := by
  unfold lookup insert
  rw [List.find?_cons_of_pos _ (by simp)]
  rfl

theorem lookup_insert_ne (m : Map α β) (k : α) (v : β) (k' : α) (h : k' ≠ k) :
    (m.insert k v).lookup k' = m.lookup k' := by
  unfold lookup insert erase
  rw [List.find?_cons_of_neg _ (by simp; intro hc; exact h hc.symm),
    find_key_filter_other _ _ _ h]

theorem mem_of_lookup_eq_some {m : Map α β} {k : α} {v : β}
    (h : m.lookup k = some v) : (k, v) ∈ m.entries := by
  unfold lookup at h
  cases hf : m.entries.find? (fun e => decide (e.1 = k)) with
  | none => rw [hf] at h; cases h
  | some e =>
    rw [hf] at h
    have hmem := List.mem_of_find?_eq_some hf
    have hkey : e.1 = k := by
      have := List.find?_some hf
      simpa using this
    have hev : e.2 = v := by simpa using h
    have hkv : e = (k, v) := by
      cases e
      cases hkey
      cases hev
      rfl
    rw [hkv] at hmem
    exact hmem

theorem lookup_isSome_of_mem {m : Map α β} {k : α} {v : β}
    (h : (k, v) ∈ m.entries) : (m.lookup k).isSome := by
  unfold lookup
  cases hf : m.entries.find? (fun e => decide (e.1 = k)) with
  | none =>
    exfalso
    have := List.find?_eq_none.mp hf (k, v) h
    simp at this
  | some e => simp

theorem isEmpty_iff (m : Map α β) :
    m.isEmpty = true ↔ ∀ k, m.lookup k = none := by
  constructor
  · intro h k
    have hnil : m.entries = [] := by simpa [isEmpty] using h
    simp [lookup, hnil]
  · intro h
    cases hm : m.entries with
    | nil => simp [isEmpty, hm]
    | cons e t =>
      exfalso
      have := h e.1
      simp [lookup, hm, List.find?_cons] at this

theorem erase_of_lookup_none {m : Map α β} {k : α}
    (h : m.lookup k = none) : m.erase k = m := by
  have hall : ∀ e ∈ m.entries, ¬ e.1 = k := by
    intro e he hc
    have hmem : (k, e.2) ∈ m.entries := by
      have hkv : e = (k, e.2) := by
        cases e
        cases hc
        rfl
      rw [hkv] at he
      exact he
    have := lookup_isSome_of_mem hmem
    rw [h] at this
    cases this
  have hfix : m.entries.filter (fun e => decide (e.1 ≠ k)) = m.entries := by
    apply List.filter_eq_self.mpr
    intro e he
    simpa using hall e he
  unfold erase
  rw [hfix]

/-- Total length of the child lists held by a `Map _ (List _)`; termination
measure for the sibling-discard loop. -/
def sizeCF {γ : Type} (m : Map α (List γ)) : Nat :=
  (m.entries.map (fun e => e.2.length)).sum

theorem sum_filter_le {γ : Type} (l : List (α × List γ)) (p : α × List γ → Bool) :
    ((l.filter p).map (fun e => e.2.length)).sum ≤ (l.map (fun e => e.2.length)).sum := by
  induction l with
  | nil => simp
  | cons e t ih =>
    by_cases h : p e = true
    · rw [List.filter_cons_of_pos h]
      simp only [List.map_cons, List.sum_cons]
      omega
    · rw [List.filter_cons_of_neg h]
      simp only [List.map_cons, List.sum_cons]
      omega

theorem sum_filter_key_le {γ : Type} (l : List (α × List γ)) (k : α) :
    (((l.find? (fun e => decide (e.1 = k))).map (fun e => e.2)).getD []).length +
      ((l.filter (fun e => decide (e.1 ≠ k))).map (fun e => e.2.length)).sum ≤
      (l.map (fun e => e.2.length)).sum := by
  induction l with
  | nil => simp
  | cons e t ih =>
    by_cases h : e.1 = k
    · rw [List.find?_cons_of_pos _ (by simp [h]), List.filter_cons_of_neg (by simp [h])]
      have hle := sum_filter_le t (fun e => decide (e.1 ≠ k))
      simp only [List.map_cons, List.sum_cons, Option.map_some', Option.getD_some]
      omega
    · rw [List.find?_cons_of_neg _ (by simp [h]), List.filter_cons_of_pos (by simp [h])]
      simp only [List.map_cons, List.sum_cons]
      omega

theorem sizeCF_erase_add_le {γ : Type} (m : Map α (List γ)) (k : α) :
    ((m.lookup k).getD []).length + sizeCF (m.erase k) ≤ sizeCF m := by
  unfold lookup erase sizeCF
  exact sum_filter_key_le m.entries k

/-- Pointwise containment of bindings: everything the first map binds, the
second binds identically. -/
def Submap (m m' : Map α β) : Prop :=
  ∀ k v, m.lookup k = some v → m'.lookup k = some v

theorem submap_self (m : Map α β) : Submap m m := fun _ _ h => h

theorem submap_comp {m₁ m₂ m₃ : Map α β}
    (h₁ : Submap m₁ m₂) (h₂ : Submap m₂ m₃) : Submap m₁ m₃ :=
  fun k v h => h₂ k v (h₁ k v h)

theorem submap_erase (m : Map α β) (k : α) : Submap (m.erase k) m := by
  intro k' v h
  by_cases hk : k' = k
  · rw [hk, lookup_erase_self] at h; cases h
  · rwa [lookup_erase_ne _ _ _ hk] at h

end Map

/-- `Da::SlotHash`: opaque block-hash identifier. -/
abbrev SlotHash := Nat

/-- `SnapshotId` (the "PendingStateId" of the spec): numeric handle. -/
abbrev SnapshotId := Nat

/-- `StorageKey` (opaque). -/
abbrev StorageKey := Nat

/-- `StorageValue` (opaque). -/
abbrev StorageValue := Nat

/-- `Da::BlockHeader`: exposes `hash()` and `prev_hash()`. -/
structure BlockHeader where
  hash : SlotHash
  prev_hash : SlotHash
deriving DecidableEq

/-- The crate's own test snapshot (`MockSnapshot` in the `tests` module of
`sov-fork-manager/src/lib.rs`): an id plus a storage cache and an accessory
cache. -/
structure MockSnapshot where
  id : SnapshotId
  cache : Map StorageKey StorageValue
  accessory_cache : Map StorageKey StorageValue
deriving DecidableEq

/-- `Snapshot::get_storage_value` of `MockSnapshot`. -/
def MockSnapshot.get_storage_value (s : MockSnapshot) (key : StorageKey) : Option StorageValue :=
  s.cache.lookup key

/-- `Snapshot::get_accessory_value` of `MockSnapshot`. -/
def MockSnapshot.get_accessory_value (s : MockSnapshot) (key : StorageKey) : Option StorageValue :=
  s.accessory_cache.lookup key

/-- `Snapshot::get_id` of `MockSnapshot`. -/
def MockSnapshot.get_id (s : MockSnapshot) : SnapshotId :=
  s.id

/-- `ForkManager<S, Da>` state.  `committed` and `version` model the
database handles: the list of snapshots written out by `commit_snapshot`
(in commit order) and the `StateDB` version counter advanced by
`inc_next_version`. -/
structure ForkManager where
  committed : List MockSnapshot
  version : Nat
  snapshots : Map SlotHash MockSnapshot
  chain_forks : Map SlotHash (List SlotHash)
  blocks_to_parent : Map SlotHash SlotHash
  latest_snapshot_id : SnapshotId
  snapshot_id_to_block_hash : Map SnapshotId SlotHash
deriving DecidableEq

namespace ForkManager

/-- `ForkManager::new`: every mapping starts out empty. -/
def new : ForkManager :=
  { committed := []
    version := 0
    snapshots := ⟨[]⟩
    chain_forks := ⟨[]⟩
    blocks_to_parent := ⟨[]⟩
    latest_snapshot_id := 0
    snapshot_id_to_block_hash := ⟨[]⟩ }

/-- `ForkManager::is_empty`. -/
def is_empty (fm : ForkManager) : Bool :=
  fm.chain_forks.isEmpty
    && fm.blocks_to_parent.isEmpty
    && fm.snapshots.isEmpty
    && fm.snapshot_id_to_block_hash.isEmpty

/-- One step of `SnapshotParentIterator::next`: yield the snapshot stored
for the current hash (ending the iteration if the current hash is absent
or has no snapshot) together with the hash the iterator moves to. -/
def iterator_next (fm : ForkManager) (current : Option SlotHash) :
    Option (MockSnapshot × Option SlotHash) :=
  match current with
  | none => none
  | some current_hash =>
    match fm.snapshots.lookup current_hash with
    | none => none
    | some snapshot => some (snapshot, fm.blocks_to_parent.lookup current_hash)

/-- The `for snapshot in self.parent_iterator(..)` loops of the
`SnapshotQuery` impl: return the first `some` produced by `f` along the
ancestor walk.  `fuel` bounds the walk; the Rust iterator is unbounded and
can only diverge on a cyclic `blocks_to_parent`, and on an acyclic state a
fuel of `snapshots.size + 1` is never exhausted because each yielded
snapshot is a distinct entry of `snapshots`. -/
def query_walk (fm : ForkManager) (f : MockSnapshot → Option StorageValue) :
    Nat → Option SlotHash → Option StorageValue
  | 0, _ => none
  | fuel + 1, current =>
    match iterator_next fm current with
    | none => none
    | some (snapshot, next_hash) =>
      match f snapshot with
      | some value => some value
      | none => query_walk fm f fuel next_hash

/-- `ForkManager::parent_iterator`'s starting hash. -/
def parent_iterator_start (fm : ForkManager) (snapshot_id : SnapshotId) : Option SlotHash :=
  fm.snapshot_id_to_block_hash.lookup snapshot_id

/-- `SnapshotQuery::query_storage_value`. -/
def query_storage_value (fm : ForkManager) (snapshot_id : SnapshotId) (key : StorageKey) :
    Option StorageValue :=
  query_walk fm (fun s => s.get_storage_value key) (fm.snapshots.size + 1)
    (fm.parent_iterator_start snapshot_id)

/-- `SnapshotQuery::query_accessory_value`. -/
def query_accessory_value (fm : ForkManager) (snapshot_id : SnapshotId) (key : StorageKey) :
    Option StorageValue :=
  query_walk fm (fun s => s.get_accessory_value key) (fm.snapshots.size + 1)
    (fm.parent_iterator_start snapshot_id)

/-- `ForkManager::get_new_ref`.  The mutations happen in source order:
increment `latest_snapshot_id`, record the id-to-hash binding, insert the
parent edge, and only then `assert!` that the hash had no previous parent
edge (so a failing call leaves those mutations behind, mirroring the state
a caller that caught the panic would observe); on success the hash is
appended to the parent's `chain_forks` entry. -/
def get_new_ref (fm : ForkManager) (block_header : BlockHeader) :
    Except ForkManager (ForkManager × SnapshotId) :=
  let latest := fm.latest_snapshot_id + 1
  let current_block_hash := block_header.hash
  let prev_block_hash := block_header.prev_hash
  let fm1 : ForkManager :=
    { fm with latest_snapshot_id := latest
              snapshot_id_to_block_hash :=
                fm.snapshot_id_to_block_hash.insert latest current_block_hash }
  let c := fm1.blocks_to_parent.lookup current_block_hash
  let fm2 : ForkManager :=
    { fm1 with blocks_to_parent :=
                 fm1.blocks_to_parent.insert current_block_hash prev_block_hash }
  match c with
  | some _ => .error fm2
  | none =>
    let fm3 : ForkManager :=
      { fm2 with chain_forks :=
                   fm2.chain_forks.insert prev_block_hash
                     (((fm2.chain_forks.lookup prev_block_hash).getD []) ++ [current_block_hash]) }
    .ok (fm3, latest)

/-- `ForkManager::add_snapshot`: look the block hash up from the
snapshot's id (`unwrap` panics when the id was never registered) and file
the snapshot under that hash. -/
def add_snapshot (fm : ForkManager) (snapshot : MockSnapshot) :
    Except ForkManager ForkManager :=
  match fm.snapshot_id_to_block_hash.lookup snapshot.get_id with
  | none => .error fm
  | some snapshot_block_hash =>
    .ok { fm with snapshots := fm.snapshots.insert snapshot_block_hash snapshot }

/-- `ForkManager::remove_snapshot`: take the snapshot out of `snapshots`
(`expect` panics when it is absent) and drop its id binding (`unwrap`
panics when the binding is absent).  The `debug_assert_eq!` comparing the
removed hash with the argument is compiled out in release builds and is
not modelled. -/
def remove_snapshot (fm : ForkManager) (block_hash : SlotHash) :
    Except ForkManager (MockSnapshot × ForkManager) :=
  match fm.snapshots.lookup block_hash with
  | none => .error fm
  | some snapshot =>
    let fm1 : ForkManager := { fm with snapshots := fm.snapshots.erase block_hash }
    match fm1.snapshot_id_to_block_hash.lookup snapshot.get_id with
    | none => .error fm1
    | some _removed_block_hash =>
      .ok (snapshot,
        { fm1 with snapshot_id_to_block_hash :=
                     fm1.snapshot_id_to_block_hash.erase snapshot.get_id })

/-- `ForkManager::commit_snapshot`: ship the snapshot's write batches to
the persistent stores and advance the version counter. -/
def commit_snapshot (fm : ForkManager) (snapshot : MockSnapshot) : ForkManager :=
  { fm with committed := fm.committed ++ [snapshot], version := fm.version + 1 }

theorem remove_snapshot_ok {fm : ForkManager} {h : SlotHash} {s : MockSnapshot}
    {fm' : ForkManager} (heq : remove_snapshot fm h = .ok (s, fm')) :
    fm.snapshots.lookup h = some s ∧
      (fm.snapshot_id_to_block_hash.lookup s.id).isSome ∧
      fm' = { fm with snapshots := fm.snapshots.erase h,
                      snapshot_id_to_block_hash :=
                        fm.snapshot_id_to_block_hash.erase s.id } := by
  unfold remove_snapshot at heq
  cases hl : fm.snapshots.lookup h with
  | none => rw [hl] at heq; cases heq
  | some s0 =>
    rw [hl] at heq
    simp only [MockSnapshot.get_id] at heq
    cases hi : fm.snapshot_id_to_block_hash.lookup s0.id with
    | none => rw [hi] at heq; cases heq
    | some h0 =>
      rw [hi] at heq
      cases heq
      exact ⟨rfl, by rw [hi]; rfl, rfl⟩

theorem remove_snapshot_error_of_missing {fm : ForkManager} {h : SlotHash}
    (hmiss : fm.snapshots.lookup h = none) : remove_snapshot fm h = .error fm := by
  unfold remove_snapshot
  rw [hmiss]

/-- The worklist sweep inside `ForkManager::finalize_snapshot`
(`while let Some(next_to_discard) = to_discard.pop()`).  The `Vec` stack is
represented reversed, so `pop` takes the head and `extend(children)`
prepends the reversed child list. -/
def discardLoop (fm : ForkManager) (to_discard : List SlotHash) :
    Except ForkManager ForkManager :=
  match to_discard with
  | [] => .ok fm
  | next_to_discard :: rest =>
    let next_children_to_discard := (fm.chain_forks.lookup next_to_discard).getD []
    let fm1 : ForkManager := { fm with chain_forks := fm.chain_forks.erase next_to_discard }
    let to_discard1 := next_children_to_discard.reverse ++ rest
    match fm1.blocks_to_parent.lookup next_to_discard with
    | none => .error fm1
    | some _ =>
      let fm2 : ForkManager :=
        { fm1 with blocks_to_parent := fm1.blocks_to_parent.erase next_to_discard }
      match hrm : remove_snapshot fm2 next_to_discard with
      | .error e => .error e
      | .ok (_, fm3) => discardLoop fm3 to_discard1
termination_by to_discard.length + Map.sizeCF fm.chain_forks
decreasing_by
  have hcf : fm3.chain_forks = fm.chain_forks.erase next_to_discard := by
    have := (remove_snapshot_ok hrm).2.2
    rw [this]
  rw [hcf]
  simp only [List.length_append, List.length_reverse, List.length_cons]
  have hboom := Map.sizeCF_erase_add_le fm.chain_forks next_to_discard
  omega

/-- `ForkManager::finalize_snapshot`: remove and commit the addressed
snapshot, drop its parent edge, and if it had one, sweep every other child
of that parent (and, transitively, their `chain_forks` descendants). -/
def finalize_snapshot (fm : ForkManager) (block_hash : SlotHash) :
    Except ForkManager ForkManager :=
  match remove_snapshot fm block_hash with
  | .error e => .error e
  | .ok (snapshot, fm1) =>
    let fm2 := fm1.commit_snapshot snapshot
    match fm2.blocks_to_parent.lookup block_hash with
    | none => .ok fm2
    | some parent_block_hash =>
      let fm3 : ForkManager :=
        { fm2 with blocks_to_parent := fm2.blocks_to_parent.erase block_hash }
      match fm3.chain_forks.lookup parent_block_hash with
      | none => .error fm3
      | some children =>
        let fm4 : ForkManager :=
          { fm3 with chain_forks := fm3.chain_forks.erase parent_block_hash }
        let to_discard := (children.filter (fun bh => decide (bh ≠ block_hash))).reverse
        discardLoop fm4 to_discard

end ForkManager

/-- `ArrayWitness`: the recorded hint sequence plus the replay cursor
(`next_idx`).  Hints are kept as the raw byte vectors Borsh serialization
produces; `get_hint`'s deserialization of bytes produced by `add_hint` for
the same type is the identity on the payload, so hints are modelled at the
byte level. -/
structure ArrayWitness where
  next_idx : Nat
  hints : List (List Nat)
deriving DecidableEq

namespace ArrayWitness

/-- `ArrayWitness::default()`: empty hint list, cursor at zero. -/
def default : ArrayWitness :=
  { next_idx := 0, hints := [] }

/-- `Witness::add_hint` for `ArrayWitness`: push the serialized hint. -/
def add_hint (w : ArrayWitness) (hint : List Nat) : ArrayWitness :=
  { w with hints := w.hints ++ [hint] }

/-- `Witness::get_hint` for `ArrayWitness`: `fetch_add` the cursor, then
index the hint list.  The returned `Option` is `none` when `hints_lock[idx]`
panics (sequence exhausted); the state component carries the incremented
cursor, which the `fetch_add` performs before the panic point. -/
def get_hint (w : ArrayWitness) : Option (List Nat) × ArrayWitness :=
  let idx := w.next_idx
  (w.hints.get? idx, { w with next_idx := idx + 1 })

/-- `Witness::merge` for `ArrayWitness`: drain the unread suffix of `rhs`
(everything from `rhs.next_idx` on) and append it to `lhs`'s hints.  The
pair returned is (updated `self`, drained `rhs`). -/
def merge (lhs rhs : ArrayWitness) : ArrayWitness × ArrayWitness :=
  let rhs_next_idx := rhs.next_idx
  ({ lhs with hints := lhs.hints ++ rhs.hints.drop rhs_next_idx },
   { rhs with hints := rhs.hints.take rhs_next_idx })

end ArrayWitness

namespace ForkManager

/-- The four fork-forest maps of the second manager bind everything the
first one binds: the discard sweep only ever erases bindings. -/
def Shrink (fmA fmB : ForkManager) : Prop :=
  Map.Submap fmA.snapshots fmB.snapshots ∧
    Map.Submap fmA.chain_forks fmB.chain_forks ∧
    Map.Submap fmA.blocks_to_parent fmB.blocks_to_parent ∧
    Map.Submap fmA.snapshot_id_to_block_hash fmB.snapshot_id_to_block_hash

theorem shrink_self (fm : ForkManager) : Shrink fm fm :=
  ⟨Map.submap_self _, Map.submap_self _, Map.submap_self _, Map.submap_self _⟩

theorem shrink_comp {fmA fmB fmC : ForkManager}
    (h1 : Shrink fmA fmB) (h2 : Shrink fmB fmC) : Shrink fmA fmC :=
  ⟨Map.submap_comp h1.1 h2.1, Map.submap_comp h1.2.1 h2.2.1,
   Map.submap_comp h1.2.2.1 h2.2.2.1, Map.submap_comp h1.2.2.2 h2.2.2.2⟩

theorem remove_snapshot_eq_ok {fm : ForkManager} {h : SlotHash} {s : MockSnapshot}
    {h2 : SlotHash} (hs : fm.snapshots.lookup h = some s)
    (hi : fm.snapshot_id_to_block_hash.lookup s.id = some h2) :
    remove_snapshot fm h =
      .ok (s, { fm with snapshots := fm.snapshots.erase h,
                        snapshot_id_to_block_hash :=
                          fm.snapshot_id_to_block_hash.erase s.id }) := by
  unfold remove_snapshot
  rw [hs]
  simp only [MockSnapshot.get_id]
  rw [hi]

/-- State reached by one successful iteration of the discard loop on
`next`: `chain_forks`, `blocks_to_parent` and `snapshots` lose their
`next` bindings and the id binding of `next`'s snapshot disappears. -/
def discardStep (fm : ForkManager) (next : SlotHash) (s : MockSnapshot) : ForkManager :=
  { fm with chain_forks := fm.chain_forks.erase next,
            blocks_to_parent := fm.blocks_to_parent.erase next,
            snapshots := fm.snapshots.erase next,
            snapshot_id_to_block_hash := fm.snapshot_id_to_block_hash.erase s.id }

theorem discardLoop_cons_eq {fm : ForkManager} {next : SlotHash} (rest : List SlotHash)
    {p : SlotHash} {s : MockSnapshot} {h2 : SlotHash}
    (hb : fm.blocks_to_parent.lookup next = some p)
    (hs : fm.snapshots.lookup next = some s)
    (hi : fm.snapshot_id_to_block_hash.lookup s.id = some h2) :
    discardLoop fm (next :: rest) =
      discardLoop (discardStep fm next s)
        (((fm.chain_forks.lookup next).getD []).reverse ++ rest) := by
  have hrmok := @remove_snapshot_eq_ok
    { fm with chain_forks := fm.chain_forks.erase next,
              blocks_to_parent := fm.blocks_to_parent.erase next }
    next s h2 hs hi
  conv_lhs => rw [discardLoop]
  dsimp only
  split
  · rename_i heq
    exact absurd (hb.symm.trans heq) (by simp)
  · rename_i pv heq
    split
    · rename_i e hrm
      rw [hrmok] at hrm
      cases hrm
    · rename_i s0 fm3 hrm
      rw [hrmok] at hrm
      have hpair := Except.ok.inj hrm
      rw [Prod.mk.injEq] at hpair
      obtain ⟨hs0, hfm3⟩ := hpair
      rw [← hfm3]
      dsimp only [discardStep]

theorem discardLoop_cons_ok {fm : ForkManager} {next : SlotHash} {rest : List SlotHash}
    {fm' : ForkManager} (hok : discardLoop fm (next :: rest) = .ok fm') :
    ∃ p s, fm.blocks_to_parent.lookup next = some p ∧
      fm.snapshots.lookup next = some s ∧
      (fm.snapshot_id_to_block_hash.lookup s.id).isSome ∧
      discardLoop (discardStep fm next s)
        (((fm.chain_forks.lookup next).getD []).reverse ++ rest) = .ok fm' := by
  rw [discardLoop] at hok
  dsimp only at hok
  split at hok
  · cases hok
  · rename_i pv heq
    split at hok
    · cases hok
    · rename_i s0 fm3 hrm
      obtain ⟨hs0, hi0, hfm3⟩ := remove_snapshot_ok hrm
      rw [hfm3] at hok
      exact ⟨pv, s0, heq, hs0, hi0, hok⟩

/-- Measure driving the discard loop: worklist length plus the total size
of the remaining child lists. -/
def loopMeasure (fm : ForkManager) (wl : List SlotHash) : Nat :=
  wl.length + Map.sizeCF fm.chain_forks

theorem loopMeasure_step {fm : ForkManager} {next : SlotHash} {s : MockSnapshot}
    (rest : List SlotHash) :
    loopMeasure (discardStep fm next s)
        (((fm.chain_forks.lookup next).getD []).reverse ++ rest) <
      loopMeasure fm (next :: rest) := by
  unfold loopMeasure discardStep
  simp only [List.length_append, List.length_reverse, List.length_cons]
  have := Map.sizeCF_erase_add_le fm.chain_forks next
  omega

theorem discardLoop_submap_aux :
    ∀ n, ∀ {fm : ForkManager} {wl : List SlotHash} {fm' : ForkManager},
      loopMeasure fm wl ≤ n → discardLoop fm wl = .ok fm' → Shrink fm' fm := by
  intro n
  induction n with
  | zero =>
    intro fm wl fm' hm hok
    cases wl with
    | nil =>
      unfold discardLoop at hok
      cases hok
      exact shrink_self _
    | cons a rest => simp [loopMeasure] at hm
  | succ n ih =>
    intro fm wl fm' hm hok
    cases wl with
    | nil =>
      unfold discardLoop at hok
      cases hok
      exact shrink_self _
    | cons next rest =>
      obtain ⟨p, s, hb, hs, hi, hrest⟩ := discardLoop_cons_ok hok
      have hlt := @loopMeasure_step fm next s rest
      have hres := ih (by omega) hrest
      have hstepShrink : Shrink (discardStep fm next s) fm := by
        refine ⟨?_, ?_, ?_, ?_⟩ <;> exact Map.submap_erase _ _
      exact shrink_comp hres hstepShrink

theorem discardLoop_submap {fm : ForkManager} {wl : List SlotHash} {fm' : ForkManager}
    (hok : discardLoop fm wl = .ok fm') : Shrink fm' fm :=
  discardLoop_submap_aux (loopMeasure fm wl) (Nat.le_refl _) hok

theorem get_new_ref_of_unregistered {fm : ForkManager} {bh : BlockHeader}
    (h : fm.blocks_to_parent.lookup bh.hash = none) :
    get_new_ref fm bh =
      .ok ({ fm with
              latest_snapshot_id := fm.latest_snapshot_id + 1
              snapshot_id_to_block_hash :=
                fm.snapshot_id_to_block_hash.insert (fm.latest_snapshot_id + 1) bh.hash
              blocks_to_parent := fm.blocks_to_parent.insert bh.hash bh.prev_hash
              chain_forks :=
                fm.chain_forks.insert bh.prev_hash
                  (((fm.chain_forks.lookup bh.prev_hash).getD []) ++ [bh.hash]) },
           fm.latest_snapshot_id + 1) := by
  simp only [get_new_ref, h]

theorem get_new_ref_of_registered {fm : ForkManager} {bh : BlockHeader} {p : SlotHash}
    (h : fm.blocks_to_parent.lookup bh.hash = some p) :
    get_new_ref fm bh =
      .error { fm with
                latest_snapshot_id := fm.latest_snapshot_id + 1
                snapshot_id_to_block_hash :=
                  fm.snapshot_id_to_block_hash.insert (fm.latest_snapshot_id + 1) bh.hash
                blocks_to_parent := fm.blocks_to_parent.insert bh.hash bh.prev_hash } := by
  simp only [get_new_ref, h]

theorem get_new_ref_ok_inv {fm : ForkManager} {bh : BlockHeader} {fm1 : ForkManager}
    {i : SnapshotId} (h : get_new_ref fm bh = .ok (fm1, i)) :
    fm.blocks_to_parent.lookup bh.hash = none ∧
      i = fm.latest_snapshot_id + 1 ∧
      fm1 = { fm with
              latest_snapshot_id := fm.latest_snapshot_id + 1
              snapshot_id_to_block_hash :=
                fm.snapshot_id_to_block_hash.insert (fm.latest_snapshot_id + 1) bh.hash
              blocks_to_parent := fm.blocks_to_parent.insert bh.hash bh.prev_hash
              chain_forks :=
                fm.chain_forks.insert bh.prev_hash
                  (((fm.chain_forks.lookup bh.prev_hash).getD []) ++ [bh.hash]) } := by
  cases hc : fm.blocks_to_parent.lookup bh.hash with
  | some p =>
    rw [get_new_ref_of_registered hc] at h
    cases h
  | none =>
    rw [get_new_ref_of_unregistered hc] at h
    have hpair := Except.ok.inj h
    rw [Prod.mk.injEq] at hpair
    exact ⟨rfl, hpair.2.symm, hpair.1.symm⟩

theorem add_snapshot_of_registered {fm : ForkManager} {s : MockSnapshot} {bh : SlotHash}
    (h : fm.snapshot_id_to_block_hash.lookup s.id = some bh) :
    add_snapshot fm s = .ok { fm with snapshots := fm.snapshots.insert bh s } := by
  simp only [add_snapshot, MockSnapshot.get_id, h]

theorem add_snapshot_of_unregistered {fm : ForkManager} {s : MockSnapshot}
    (h : fm.snapshot_id_to_block_hash.lookup s.id = none) :
    add_snapshot fm s = .error fm := by
  simp only [add_snapshot, MockSnapshot.get_id, h]

theorem add_snapshot_ok_inv {fm : ForkManager} {s : MockSnapshot} {fm1 : ForkManager}
    (h : add_snapshot fm s = .ok fm1) :
    ∃ bh, fm.snapshot_id_to_block_hash.lookup s.id = some bh ∧
      fm1 = { fm with snapshots := fm.snapshots.insert bh s } := by
  cases hc : fm.snapshot_id_to_block_hash.lookup s.id with
  | none =>
    rw [add_snapshot_of_unregistered hc] at h
    cases h
  | some bh =>
    rw [add_snapshot_of_registered hc] at h
    exact ⟨bh, rfl, (Except.ok.inj h).symm⟩

theorem finalize_of_no_parent {fm : ForkManager} {h : SlotHash} {s : MockSnapshot}
    {h2 : SlotHash} (hs : fm.snapshots.lookup h = some s)
    (hi : fm.snapshot_id_to_block_hash.lookup s.id = some h2)
    (hb : fm.blocks_to_parent.lookup h = none) :
    finalize_snapshot fm h =
      .ok { fm with
             snapshots := fm.snapshots.erase h
             snapshot_id_to_block_hash := fm.snapshot_id_to_block_hash.erase s.id
             committed := fm.committed ++ [s]
             version := fm.version + 1 } := by
  unfold finalize_snapshot
  rw [remove_snapshot_eq_ok hs hi]
  dsimp only [commit_snapshot]
  rw [hb]

theorem finalize_with_parent_eq {fm : ForkManager} {h : SlotHash} {s : MockSnapshot}
    {h2 parent : SlotHash} {children : List SlotHash}
    (hs : fm.snapshots.lookup h = some s)
    (hi : fm.snapshot_id_to_block_hash.lookup s.id = some h2)
    (hb : fm.blocks_to_parent.lookup h = some parent)
    (hcf : fm.chain_forks.lookup parent = some children) :
    finalize_snapshot fm h =
      discardLoop
        { fm with
           snapshots := fm.snapshots.erase h
           snapshot_id_to_block_hash := fm.snapshot_id_to_block_hash.erase s.id
           committed := fm.committed ++ [s]
           version := fm.version + 1
           blocks_to_parent := fm.blocks_to_parent.erase h
           chain_forks := fm.chain_forks.erase parent }
        ((children.filter (fun bh => decide (bh ≠ h))).reverse) := by
  unfold finalize_snapshot
  rw [remove_snapshot_eq_ok hs hi]
  dsimp only [commit_snapshot]
  rw [hb]
  dsimp only
  rw [hcf]

theorem finalize_ok_snapshots_lookup_none {fm : ForkManager} {h : SlotHash}
    {fm' : ForkManager} (hok : finalize_snapshot fm h = .ok fm') :
    fm'.snapshots.lookup h = none := by
  unfold finalize_snapshot at hok
  split at hok
  · cases hok
  · rename_i s fm1 hrm
    obtain ⟨hs, hi, hfm1⟩ := remove_snapshot_ok hrm
    dsimp only [commit_snapshot] at hok
    split at hok
    · cases hok
      rw [hfm1]
      exact Map.lookup_erase_self _ _
    · rename_i parent hb
      split at hok
      · cases hok
      · rename_i children hcf
        have hsub := discardLoop_submap hok
        cases hlook : fm'.snapshots.lookup h with
        | none => rfl
        | some v =>
          exfalso
          have := hsub.1 h v hlook
          rw [hfm1] at this
          have hnone := Map.lookup_erase_self fm.snapshots h
          dsimp only at this
          rw [hnone] at this
          cases this

/-- C4: for every block header whose hash was already registered by a
previous `get_new_ref` call, a second `get_new_ref` call with that hash
aborts (the `assert!` on the replaced parent edge fires) instead of
returning a new `PendingStateId`, so no `SlotHash` is ever assigned two
different pending-state ids. -/
theorem c4_get_new_ref_rejects_duplicate (fm fm1 : ForkManager) (bh bh2 : BlockHeader)
    (i : SnapshotId) (hok : get_new_ref fm bh = .ok (fm1, i)) (hsame : bh2.hash = bh.hash) :
    ∃ fmE, get_new_ref fm1 bh2 = .error fmE := by
  obtain ⟨hnone, hid, hfm1⟩ := get_new_ref_ok_inv hok
  have hreg : fm1.blocks_to_parent.lookup bh2.hash = some bh.prev_hash := by
    rw [hfm1, hsame]
    exact Map.lookup_insert_self _ _ _
  exact ⟨_, get_new_ref_of_registered hreg⟩

/-- C5: a block hash with no entry in `snapshots` — never given a snapshot,
or already finalized once — makes `finalize_snapshot` abort on the snapshot
lookup with the manager unchanged (so nothing is committed), rather than
silently succeed. -/
theorem c5_finalize_missing_snapshot_fails (fm fm' : ForkManager) (h : SlotHash) :
    (fm.snapshots.lookup h = none → finalize_snapshot fm h = .error fm) ∧
      (finalize_snapshot fm h = .ok fm' → finalize_snapshot fm' h = .error fm') := by
  constructor
  · intro hmiss
    unfold finalize_snapshot
    rw [remove_snapshot_error_of_missing hmiss]
  · intro hok
    have hnone := finalize_ok_snapshots_lookup_none hok
    unfold finalize_snapshot
    rw [remove_snapshot_error_of_missing hnone]

/-- C6: a block hash that has a snapshot but no `blocks_to_parent` entry is
finalized as "no pruning needed": the snapshot is committed, the call
succeeds, `chain_forks` and `blocks_to_parent` are untouched, and no other
block's `snapshots` or id binding is removed. -/
theorem c6_finalize_without_parent_edge (fm : ForkManager) (h : SlotHash) (s : MockSnapshot)
    (h2 : SlotHash) (hs : fm.snapshots.lookup h = some s)
    (hi : fm.snapshot_id_to_block_hash.lookup s.id = some h2)
    (hb : fm.blocks_to_parent.lookup h = none) :
    ∃ fm', finalize_snapshot fm h = .ok fm' ∧
      fm'.committed = fm.committed ++ [s] ∧
      fm'.chain_forks = fm.chain_forks ∧
      fm'.blocks_to_parent = fm.blocks_to_parent ∧
      fm'.snapshots.lookup h = none ∧
      (∀ x, x ≠ h → fm'.snapshots.lookup x = fm.snapshots.lookup x) ∧
      (∀ j, j ≠ s.id → fm'.snapshot_id_to_block_hash.lookup j =
        fm.snapshot_id_to_block_hash.lookup j) := by
  refine ⟨_, finalize_of_no_parent hs hi hb, rfl, rfl, rfl, ?_, ?_, ?_⟩
  · exact Map.lookup_erase_self _ _
  · intro x hx
    exact Map.lookup_erase_ne _ _ _ hx
  · intro j hj
    exact Map.lookup_erase_ne _ _ _ hj

/-- C10: a `get_new_ref` call on an already-registered hash is not atomic:
the aborted call has already incremented `latest_snapshot_id`, inserted the
id-to-hash binding, and overwritten the hash's parent edge (`chain_forks`
alone is untouched), so the state at the panic differs from the state
before the call. -/
theorem c10_get_new_ref_failure_mutates (fm : ForkManager) (bh : BlockHeader) (p : SlotHash)
    (hreg : fm.blocks_to_parent.lookup bh.hash = some p) :
    ∃ fmE, get_new_ref fm bh = .error fmE ∧
      fmE.latest_snapshot_id = fm.latest_snapshot_id + 1 ∧
      fmE.snapshot_id_to_block_hash =
        fm.snapshot_id_to_block_hash.insert (fm.latest_snapshot_id + 1) bh.hash ∧
      fmE.blocks_to_parent = fm.blocks_to_parent.insert bh.hash bh.prev_hash ∧
      fmE.chain_forks = fm.chain_forks ∧
      fmE ≠ fm := by
  refine ⟨_, get_new_ref_of_registered hreg, rfl, rfl, rfl, rfl, ?_⟩
  intro hcontr
  have hlat := congrArg ForkManager.latest_snapshot_id hcontr
  exact Nat.succ_ne_self fm.latest_snapshot_id hlat

end ForkManager

/-- C7: a fresh witness that records `h1, h2, h3` through `add_hint` replays
exactly `h1, h2, h3` in order through three `get_hint` calls, and a fourth
`get_hint` fails (index out of bounds) instead of repeating or defaulting. -/
theorem c7_hint_round_trip (h1 h2 h3 : List Nat) :
    ((((ArrayWitness.default.add_hint h1).add_hint h2).add_hint h3).get_hint).1 = some h1 ∧
      (((((ArrayWitness.default.add_hint h1).add_hint h2).add_hint
        h3).get_hint).2.get_hint).1 = some h2 ∧
      ((((((ArrayWitness.default.add_hint h1).add_hint h2).add_hint
        h3).get_hint).2.get_hint).2.get_hint).1 = some h3 ∧
      (((((((ArrayWitness.default.add_hint h1).add_hint h2).add_hint
        h3).get_hint).2.get_hint).2.get_hint).2.get_hint).1 = none :=
  ⟨rfl, rfl, rfl, rfl⟩

/-- C8: merging a witness with unread suffix `[x, y]` into one with unread
suffix `[a]` leaves the target witness with remaining reads `a, x, y` in
that order. -/
theorem c8_merge_appends_unread (lhs rhs : ArrayWitness) (a x y : List Nat)
    (hl : lhs.hints.drop lhs.next_idx = [a]) (hr : rhs.hints.drop rhs.next_idx = [x, y]) :
    (((lhs.merge rhs).1.get_hint).1 = some a) ∧
      ((((lhs.merge rhs).1.get_hint).2.get_hint).1 = some x) ∧
      (((((lhs.merge rhs).1.get_hint).2.get_hint).2.get_hint).1 = some y) := by
  have hlt : lhs.next_idx < lhs.hints.length := by
    by_contra hge
    push_neg at hge
    rw [List.drop_eq_nil_of_le hge] at hl
    cases hl
  have hlen : lhs.hints.length = lhs.next_idx + 1 := by
    have hld := congrArg List.length hl
    rw [List.length_drop] at hld
    simp only [List.length_cons, List.length_nil] at hld
    omega
  have hgetn : lhs.hints[lhs.next_idx]? = some a := by
    have hd := List.getElem?_drop lhs.hints lhs.next_idx 0
    rw [hl] at hd
    simpa using hd.symm
  refine ⟨?_, ?_, ?_⟩ <;>
    simp only [ArrayWitness.merge, ArrayWitness.get_hint, hr] <;>
    rw [List.get?_eq_getElem?, List.getElem?_append]
  · rw [if_pos hlt]
    exact hgetn
  · rw [if_neg (by omega)]
    have hidx : lhs.next_idx + 1 - lhs.hints.length = 0 := by omega
    rw [hidx]
    rfl
  · rw [if_neg (by omega)]
    have hidx : lhs.next_idx + 1 + 1 - lhs.hints.length = 1 := by omega
    rw [hidx]
    rfl

/-- Concrete manager with block hash `1` (parent `0`) registered once;
reached from `ForkManager.new` by `get_new_ref ⟨1, 0⟩`. -/
def fmA : ForkManager :=
  ⟨[], 0, ⟨[]⟩, ⟨[(0, [1])]⟩, ⟨[(1, 0)]⟩, 1, ⟨[(1, 1)]⟩⟩

/-- Concrete manager holding one parentless pending block: hash `7`,
snapshot id `4`. -/
def fmC6 : ForkManager :=
  ⟨[], 0, ⟨[(7, ⟨4, ⟨[]⟩, ⟨[]⟩⟩)]⟩, ⟨[]⟩, ⟨[]⟩, 4, ⟨[(4, 7)]⟩⟩

/-- `fmC6` after finalizing block `7`. -/
def fmC6' : ForkManager :=
  ⟨[⟨4, ⟨[]⟩, ⟨[]⟩⟩], 1, ⟨[]⟩, ⟨[]⟩, ⟨[]⟩, 4, ⟨[]⟩⟩

theorem c4_witness :
    ∃ fmE, ForkManager.get_new_ref fmA ⟨1, 5⟩ = .error fmE :=
  ForkManager.c4_get_new_ref_rejects_duplicate ForkManager.new fmA ⟨1, 0⟩ ⟨1, 5⟩ 1 rfl rfl

theorem c5_witness :
    ForkManager.finalize_snapshot ForkManager.new 5 = .error ForkManager.new ∧
      ForkManager.finalize_snapshot fmC6' 7 = .error fmC6' :=
  ⟨(ForkManager.c5_finalize_missing_snapshot_fails ForkManager.new ForkManager.new 5).1 rfl,
   (ForkManager.c5_finalize_missing_snapshot_fails fmC6 fmC6' 7).2 rfl⟩

theorem c6_witness :
    ∃ fm', ForkManager.finalize_snapshot fmC6 7 = .ok fm' ∧
      fm'.committed = fmC6.committed ++ [⟨4, ⟨[]⟩, ⟨[]⟩⟩] ∧
      fm'.chain_forks = fmC6.chain_forks ∧
      fm'.blocks_to_parent = fmC6.blocks_to_parent ∧
      fm'.snapshots.lookup 7 = none ∧
      (∀ x, x ≠ 7 → fm'.snapshots.lookup x = fmC6.snapshots.lookup x) ∧
      (∀ j, j ≠ 4 → fm'.snapshot_id_to_block_hash.lookup j =
        fmC6.snapshot_id_to_block_hash.lookup j) :=
  ForkManager.c6_finalize_without_parent_edge fmC6 7 ⟨4, ⟨[]⟩, ⟨[]⟩⟩ 7 rfl rfl rfl

theorem c10_witness :
    ∃ fmE, ForkManager.get_new_ref fmA ⟨1, 9⟩ = .error fmE ∧
      fmE.latest_snapshot_id = fmA.latest_snapshot_id + 1 ∧
      fmE.snapshot_id_to_block_hash =
        fmA.snapshot_id_to_block_hash.insert (fmA.latest_snapshot_id + 1) 1 ∧
      fmE.blocks_to_parent = fmA.blocks_to_parent.insert 1 9 ∧
      fmE.chain_forks = fmA.chain_forks ∧
      fmE ≠ fmA :=
  ForkManager.c10_get_new_ref_failure_mutates fmA ⟨1, 9⟩ 0 rfl

/-- Witness fixture: a witness with one unread hint `[1]`. -/
def lhsW : ArrayWitness :=
  ⟨0, [[1]]⟩

/-- Witness fixture: a witness that has read one of three hints, leaving
`[2], [3]` unread. -/
def rhsW : ArrayWitness :=
  ⟨1, [[9], [2], [3]]⟩

theorem c8_witness :
    (((lhsW.merge rhsW).1.get_hint).1 = some [1]) ∧
      ((((lhsW.merge rhsW).1.get_hint).2.get_hint).1 = some [2]) ∧
      (((((lhsW.merge rhsW).1.get_hint).2.get_hint).2.get_hint).1 = some [3]) :=
  c8_merge_appends_unread lhsW rhsW [1] [2] [3] rfl rfl

namespace ForkManager

theorem query_walk_none (fm : ForkManager) (f : MockSnapshot → Option StorageValue) :
    ∀ fuel, query_walk fm f fuel none = none := by
  intro fuel
  cases fuel <;> rfl

theorem query_walk_missing (fm : ForkManager) (f : MockSnapshot → Option StorageValue)
    {h : SlotHash} (hm : fm.snapshots.lookup h = none) :
    ∀ fuel, query_walk fm f fuel (some h) = none := by
  intro fuel
  cases fuel with
  | zero => rfl
  | succ n => simp only [query_walk, iterator_next, hm]

theorem query_walk_two_steps (fm : ForkManager) (f : MockSnapshot → Option StorageValue)
    {h0 h1 : SlotHash} {s0 : MockSnapshot} (n : Nat)
    (hs0 : fm.snapshots.lookup h0 = some s0)
    (hb : fm.blocks_to_parent.lookup h0 = some h1)
    (hs1 : fm.snapshots.lookup h1 = none) :
    query_walk fm f (n + 2) (some h0) = f s0 := by
  simp only [query_walk, iterator_next, hs0, hb]
  cases hv : f s0 with
  | some v => rfl
  | none => simp only [query_walk, iterator_next, hs1]

/-- An ancestor chain as the parent iterator walks it: consecutive
`blocks_to_parent` links, a snapshot at every hash, ending where the chain
runs out of parents or the next parent has no snapshot. -/
def Lineage (fm : ForkManager) (chain : List SlotHash) : Prop :=
  chain.Chain' (fun a b => fm.blocks_to_parent.lookup a = some b) ∧
    (∀ x ∈ chain, (fm.snapshots.lookup x).isSome) ∧
    (∀ last, chain.getLast? = some last →
      ∀ g, fm.blocks_to_parent.lookup last = some g → fm.snapshots.lookup g = none)

theorem query_walk_lineage (fm : ForkManager) (f : MockSnapshot → Option StorageValue) :
    ∀ (chain : List SlotHash) (h0 : SlotHash) (fuel : Nat),
      chain.head? = some h0 → chain.length < fuel → Lineage fm chain →
      query_walk fm f fuel (some h0) =
        chain.findSome? (fun x => (fm.snapshots.lookup x).bind f) := by
  intro chain
  induction chain with
  | nil => intro h0 fuel hh; cases hh
  | cons h t ih =>
    intro h0 fuel hh hlt hlin
    have hh0 : h = h0 := by
      simp only [List.head?_cons] at hh
      exact Option.some.inj hh
    subst hh0
    obtain ⟨hchain, hall, hlast⟩ := hlin
    obtain ⟨s, hs⟩ : ∃ s, fm.snapshots.lookup h = some s := by
      have := hall h (by simp)
      cases hj : fm.snapshots.lookup h with
      | none => rw [hj] at this; cases this
      | some s => exact ⟨s, rfl⟩
    obtain ⟨fuel', rfl⟩ : ∃ n, fuel = n + 1 := by
      cases fuel with
      | zero => simp at hlt
      | succ n => exact ⟨n, rfl⟩
    simp only [query_walk, iterator_next, hs, List.findSome?_cons, hs, Option.some_bind]
    cases hv : f s with
    | some v => rfl
    | none =>
      cases t with
      | nil =>
        simp only [List.findSome?_nil]
        cases hb : fm.blocks_to_parent.lookup h with
        | none => exact query_walk_none fm f fuel'
        | some g =>
          have hg : fm.snapshots.lookup g = none := hlast h rfl g hb
          exact query_walk_missing fm f hg fuel'
      | cons b t' =>
        have hRab : fm.blocks_to_parent.lookup h = some b := (List.chain'_cons.mp hchain).1
        rw [hRab]
        apply ih b fuel'
        · simp
        · simp only [List.length_cons] at hlt ⊢
          omega
        · refine ⟨(List.chain'_cons.mp hchain).2, ?_, ?_⟩
          · intro x hx
            exact hall x (by simp [hx])
          · intro last hl g hg
            exact hlast last (by rw [List.getLast?_cons_cons]; exact hl) g hg

theorem lineage_length_le (fm : ForkManager) {chain : List SlotHash}
    (hnd : chain.Nodup) (hall : ∀ x ∈ chain, (fm.snapshots.lookup x).isSome) :
    chain.length ≤ fm.snapshots.size := by
  have hsub : chain ⊆ fm.snapshots.entries.map Prod.fst := by
    intro x hx
    have hxs := hall x hx
    cases hj : fm.snapshots.lookup x with
    | none => rw [hj] at hxs; cases hxs
    | some v =>
      exact List.mem_map.mpr ⟨(x, v), Map.mem_of_lookup_eq_some hj, rfl⟩
  have hle := (List.subperm_of_subset hnd hsub).length_le
  simpa [Map.size] using hle

theorem findSome?_writer {g : SlotHash → Option StorageValue} {v : StorageValue} {w : SlotHash} :
    ∀ (pre post : List SlotHash), (∀ x ∈ pre, g x = none) → g w = some v →
      (pre ++ w :: post).findSome? g = some v := by
  intro pre
  induction pre with
  | nil =>
    intro post hpre hw
    simp only [List.nil_append, List.findSome?_cons, hw]
  | cons e t ih =>
    intro post hpre hw
    have he : g e = none := hpre e (by simp)
    simp only [List.cons_append, List.findSome?_cons, he]
    exact ih post (fun x hx => hpre x (by simp [hx])) hw

/-- C2: along any pending ancestor chain in which a key is written by
exactly one snapshot, `query_storage_value` from any snapshot whose
lineage passes through the writer returns the writer's value (the nearest
ancestor's value wins), and from any snapshot whose lineage avoids the
writer it returns `none`. -/
theorem c2_query_nearest_writer (fm : ForkManager) (key : StorageKey) (W : SlotHash)
    (v : StorageValue) (sW : MockSnapshot)
    (hsW : fm.snapshots.lookup W = some sW) (hval : sW.cache.lookup key = some v)
    (honly : ∀ h s, fm.snapshots.lookup h = some s → h ≠ W → s.cache.lookup key = none) :
    (∀ (chain : List SlotHash) (h0 : SlotHash) (sid : SnapshotId),
      Lineage fm chain → chain.Nodup → chain.head? = some h0 →
      fm.snapshot_id_to_block_hash.lookup sid = some h0 → W ∈ chain →
      query_storage_value fm sid key = some v) ∧
      (∀ (chain : List SlotHash) (h0 : SlotHash) (sid : SnapshotId),
        Lineage fm chain → chain.Nodup → chain.head? = some h0 →
        fm.snapshot_id_to_block_hash.lookup sid = some h0 → W ∉ chain →
        query_storage_value fm sid key = none) := by
  constructor
  · intro chain h0 sid hlin hnd hhead hsid hW
    unfold query_storage_value parent_iterator_start
    rw [hsid]
    rw [query_walk_lineage fm _ chain h0 _ hhead
      (by have := lineage_length_le fm hnd hlin.2.1; omega) hlin]
    obtain ⟨pre, post, hsplit⟩ := List.append_of_mem hW
    rw [hsplit]
    apply findSome?_writer
    · intro x hx
      have hxchain : x ∈ chain := by rw [hsplit]; simp [hx]
      obtain ⟨sx, hsx⟩ : ∃ sx, fm.snapshots.lookup x = some sx := by
        have := hlin.2.1 x hxchain
        cases hj : fm.snapshots.lookup x with
        | none => rw [hj] at this; cases this
        | some sx => exact ⟨sx, rfl⟩
      have hxW : x ≠ W := by
        intro hcontr
        subst hcontr
        have hdisj := List.disjoint_of_nodup_append (by rw [← hsplit]; exact hnd)
        exact hdisj hx (by simp)
      rw [hsx, Option.some_bind]
      exact honly x sx hsx hxW
    · rw [hsW, Option.some_bind]
      exact hval
  · intro chain h0 sid hlin hnd hhead hsid hW
    unfold query_storage_value parent_iterator_start
    rw [hsid]
    rw [query_walk_lineage fm _ chain h0 _ hhead
      (by have := lineage_length_le fm hnd hlin.2.1; omega) hlin]
    rw [List.findSome?_eq_none]
    intro x hx
    obtain ⟨sx, hsx⟩ : ∃ sx, fm.snapshots.lookup x = some sx := by
      have := hlin.2.1 x hx
      cases hj : fm.snapshots.lookup x with
      | none => rw [hj] at this; cases this
      | some sx => exact ⟨sx, rfl⟩
    rw [hsx, Option.some_bind]
    exact honly x sx hsx (fun hcontr => hW (hcontr ▸ hx))

/-- C9: the parent walk behind the queries yields snapshots only along the
maximal contiguous prefix of the hash chain that has snapshots: an
unregistered id or a snapshotless starting hash yields `none` without
error, and along any pending prefix ending at a gap the query result is the
first hit within that prefix alone, so once a block in the chain lacks a
`snapshots` entry, deeper ancestors' snapshots are never consulted even
when present. -/
theorem c9_walk_covers_pending_prefix (fm : ForkManager) (key : StorageKey) :
    (∀ sid, fm.snapshot_id_to_block_hash.lookup sid = none →
      query_storage_value fm sid key = none ∧ query_accessory_value fm sid key = none) ∧
      (∀ sid h0, fm.snapshot_id_to_block_hash.lookup sid = some h0 →
        fm.snapshots.lookup h0 = none →
        query_storage_value fm sid key = none ∧ query_accessory_value fm sid key = none) ∧
      (∀ (chain : List SlotHash) (h0 : SlotHash) (sid : SnapshotId),
        Lineage fm chain → chain.Nodup → chain.head? = some h0 →
        fm.snapshot_id_to_block_hash.lookup sid = some h0 →
        query_storage_value fm sid key =
          chain.findSome? (fun x => (fm.snapshots.lookup x).bind
            (fun s => s.get_storage_value key)) ∧
          query_accessory_value fm sid key =
            chain.findSome? (fun x => (fm.snapshots.lookup x).bind
              (fun s => s.get_accessory_value key))) := by
  refine ⟨?_, ?_, ?_⟩
  · intro sid hsid
    unfold query_storage_value query_accessory_value parent_iterator_start
    rw [hsid]
    exact ⟨query_walk_none fm _ _, query_walk_none fm _ _⟩
  · intro sid h0 hsid hs0
    unfold query_storage_value query_accessory_value parent_iterator_start
    rw [hsid]
    exact ⟨query_walk_missing fm _ hs0 _, query_walk_missing fm _ hs0 _⟩
  · intro chain h0 sid hlin hnd hhead hsid
    have hfuel : chain.length < fm.snapshots.size + 1 := by
      have := lineage_length_le fm hnd hlin.2.1
      omega
    constructor
    · unfold query_storage_value parent_iterator_start
      rw [hsid]
      exact query_walk_lineage fm _ chain h0 _ hhead hfuel hlin
    · unfold query_accessory_value parent_iterator_start
      rw [hsid]
      exact query_walk_lineage fm _ chain h0 _ hhead hfuel hlin

end ForkManager

/-- Concrete manager for query claims: lineage `10 → 11` (key `5` written
only at `11`), a separate branch `20`, and a chain `40 → 30` whose parent
`30` is registered in ids but holds no snapshot. -/
def fmQ : ForkManager :=
  ⟨[], 0,
   ⟨[(10, ⟨1, ⟨[]⟩, ⟨[]⟩⟩), (11, ⟨2, ⟨[(5, 42)]⟩, ⟨[]⟩⟩),
     (20, ⟨3, ⟨[]⟩, ⟨[]⟩⟩), (40, ⟨4, ⟨[(6, 77)]⟩, ⟨[]⟩⟩)]⟩,
   ⟨[]⟩, ⟨[(10, 11), (40, 30)]⟩, 0,
   ⟨[(100, 10), (200, 20), (300, 30), (400, 40)]⟩⟩

theorem c2_witness :
    ForkManager.query_storage_value fmQ 100 5 = some 42 ∧
      ForkManager.query_storage_value fmQ 200 5 = none := by
  have honly : ∀ h s, fmQ.snapshots.lookup h = some s → h ≠ 11 → s.cache.lookup 5 = none := by
    intro h s hls hne
    have hm := Map.mem_of_lookup_eq_some hls
    have hm' : (h, s) = (10, (⟨1, ⟨[]⟩, ⟨[]⟩⟩ : MockSnapshot)) ∨
        (h, s) = (11, (⟨2, ⟨[(5, 42)]⟩, ⟨[]⟩⟩ : MockSnapshot)) ∨
        (h, s) = (20, (⟨3, ⟨[]⟩, ⟨[]⟩⟩ : MockSnapshot)) ∨
        (h, s) = (40, (⟨4, ⟨[(6, 77)]⟩, ⟨[]⟩⟩ : MockSnapshot)) := by
      simpa [fmQ] using hm
    rcases hm' with he | he | he | he <;> rw [Prod.mk.injEq] at he
    · rw [he.2]; rfl
    · exact absurd he.1 hne
    · rw [he.2]; rfl
    · rw [he.2]; rfl
  have hmain := ForkManager.c2_query_nearest_writer fmQ 5 11 42 ⟨2, ⟨[(5, 42)]⟩, ⟨[]⟩⟩
    rfl rfl honly
  constructor
  · refine hmain.1 [10, 11] 10 100 ⟨?_, ?_, ?_⟩ (by decide) rfl rfl (by decide)
    · exact List.chain'_cons.mpr ⟨rfl, List.chain'_singleton _⟩
    · intro x hx
      have hx' : x = 10 ∨ x = 11 := by simpa using hx
      rcases hx' with rfl | rfl <;> rfl
    · intro last hl g hg
      have h11 : (11 : SlotHash) = last := Option.some.inj hl
      subst h11
      exact Option.noConfusion hg
  · refine hmain.2 [20] 20 200 ⟨List.chain'_singleton _, ?_, ?_⟩ (by decide) rfl rfl (by decide)
    · intro x hx
      have hx' : x = 20 := by simpa using hx
      rw [hx']
      rfl
    · intro last hl g hg
      have h20 : (20 : SlotHash) = last := Option.some.inj hl
      subst h20
      exact Option.noConfusion hg

/-- Concrete manager for the prefix-walk claim: pending chain `60 → 61`
whose next ancestor `62` has no snapshot while the deeper `63` does (and
writes key `7`), and pending block `40` whose parent `30` has no snapshot
while the deeper `50` does (and writes key `9`). -/
def fmQ9 : ForkManager :=
  ⟨[], 0,
   ⟨[(40, ⟨4, ⟨[(6, 77)]⟩, ⟨[]⟩⟩), (50, ⟨5, ⟨[(9, 99)]⟩, ⟨[]⟩⟩),
     (60, ⟨6, ⟨[]⟩, ⟨[]⟩⟩), (61, ⟨7, ⟨[(7, 55)]⟩, ⟨[]⟩⟩),
     (63, ⟨9, ⟨[(7, 88)]⟩, ⟨[]⟩⟩)]⟩,
   ⟨[]⟩, ⟨[(40, 30), (30, 50), (60, 61), (61, 62), (62, 63)]⟩, 0,
   ⟨[(300, 30), (400, 40), (600, 60)]⟩⟩

theorem c9_witness :
    (ForkManager.query_storage_value fmQ9 999 7 = none ∧
        ForkManager.query_accessory_value fmQ9 999 7 = none) ∧
      (ForkManager.query_storage_value fmQ9 300 7 = none ∧
        ForkManager.query_accessory_value fmQ9 300 7 = none) ∧
      (ForkManager.query_storage_value fmQ9 600 7 = some 55 ∧
        ForkManager.query_accessory_value fmQ9 600 7 = none) ∧
      (ForkManager.query_storage_value fmQ9 400 9 = none ∧
        ForkManager.query_storage_value fmQ9 400 6 = some 77) := by
  have hlin40 : ForkManager.Lineage fmQ9 [40] := by
    refine ⟨List.chain'_singleton _, ?_, ?_⟩
    · intro x hx
      have hx' : x = 40 := by simpa using hx
      rw [hx']
      rfl
    · intro last hl g hg
      have h40 : (40 : SlotHash) = last := Option.some.inj hl
      subst h40
      have h30 : (30 : SlotHash) = g := Option.some.inj hg
      subst h30
      rfl
  have hlin60 : ForkManager.Lineage fmQ9 [60, 61] := by
    refine ⟨List.chain'_cons.mpr ⟨rfl, List.chain'_singleton _⟩, ?_, ?_⟩
    · intro x hx
      have hx' : x = 60 ∨ x = 61 := by simpa using hx
      rcases hx' with rfl | rfl <;> rfl
    · intro last hl g hg
      have h61 : (61 : SlotHash) = last := Option.some.inj hl
      subst h61
      have h62 : (62 : SlotHash) = g := Option.some.inj hg
      subst h62
      rfl
  refine ⟨(ForkManager.c9_walk_covers_pending_prefix fmQ9 7).1 999 rfl,
    (ForkManager.c9_walk_covers_pending_prefix fmQ9 7).2.1 300 30 rfl rfl, ?_, ?_⟩
  · have h3 := (ForkManager.c9_walk_covers_pending_prefix fmQ9 7).2.2 [60, 61] 60 600
      hlin60 (by decide) rfl rfl
    exact ⟨h3.1, h3.2⟩
  · have h4a := ((ForkManager.c9_walk_covers_pending_prefix fmQ9 9).2.2 [40] 40 400
      hlin40 (by decide) rfl rfl).1
    have h4b := ((ForkManager.c9_walk_covers_pending_prefix fmQ9 6).2.2 [40] 40 400
      hlin40 (by decide) rfl rfl).1
    exact ⟨h4a, h4b⟩

namespace ForkManager

/-- Children list of `q` in `chain_forks` (empty when `q` has no entry). -/
def cfList (fm : ForkManager) (q : SlotHash) : List SlotHash :=
  (fm.chain_forks.lookup q).getD []

/-- The mutual-inverse invariant of the fork forest: `c` is listed among
`q`'s children exactly when `c`'s parent edge points at `q`. -/
def Inv (fm : ForkManager) : Prop :=
  ∀ c q, c ∈ cfList fm q ↔ fm.blocks_to_parent.lookup c = some q

/-- The invariant away from the worklist: during the discard sweep the
worklist members have lost their `chain_forks` membership but still carry
their parent edge. -/
def PartialInv (fm : ForkManager) (wl : List SlotHash) : Prop :=
  ∀ c, c ∉ wl → ∀ q, (c ∈ cfList fm q ↔ fm.blocks_to_parent.lookup c = some q)

/-- Worklist members are in no `chain_forks` child list. -/
def NotInLists (fm : ForkManager) (wl : List SlotHash) : Prop :=
  ∀ x ∈ wl, ∀ q, x ∉ cfList fm q

theorem cfList_step_self (fm : ForkManager) (next : SlotHash) (s : MockSnapshot) :
    cfList (discardStep fm next s) next = [] := by
  unfold cfList discardStep
  rw [Map.lookup_erase_self]
  rfl

theorem cfList_step_ne (fm : ForkManager) (next : SlotHash) (s : MockSnapshot)
    {q : SlotHash} (hq : q ≠ next) :
    cfList (discardStep fm next s) q = cfList fm q := by
  unfold cfList discardStep
  rw [Map.lookup_erase_ne _ _ _ hq]

theorem btp_step_self (fm : ForkManager) (next : SlotHash) (s : MockSnapshot) :
    (discardStep fm next s).blocks_to_parent.lookup next = none := by
  unfold discardStep
  exact Map.lookup_erase_self _ _

theorem btp_step_ne (fm : ForkManager) (next : SlotHash) (s : MockSnapshot)
    {c : SlotHash} (hc : c ≠ next) :
    (discardStep fm next s).blocks_to_parent.lookup c = fm.blocks_to_parent.lookup c := by
  unfold discardStep
  exact Map.lookup_erase_ne _ _ _ hc

theorem discardLoop_inv_aux :
    ∀ n, ∀ {fm : ForkManager} {wl : List SlotHash} {fm' : ForkManager},
      loopMeasure fm wl ≤ n → discardLoop fm wl = .ok fm' →
      PartialInv fm wl → NotInLists fm wl → Inv fm' := by
  intro n
  induction n with
  | zero =>
    intro fm wl fm' hm hok hpi hnl
    cases wl with
    | nil =>
      unfold discardLoop at hok
      cases hok
      intro c q
      exact hpi c (by simp) q
    | cons a rest => simp [loopMeasure] at hm
  | succ n ih =>
    intro fm wl fm' hm hok hpi hnl
    cases wl with
    | nil =>
      unfold discardLoop at hok
      cases hok
      intro c q
      exact hpi c (by simp) q
    | cons next rest =>
      obtain ⟨p, s, hb, hs, hi, hrest⟩ := discardLoop_cons_ok hok
      have hlt := @loopMeasure_step fm next s rest
      have hchild_not_wl : ∀ c, c ∈ cfList fm next → c ∉ next :: rest := by
        intro c hc hcwl
        exact hnl c hcwl next hc
      refine ih (by omega) hrest ?_ ?_
      · -- PartialInv for the stepped state
        intro c hc q
        have hcmem : c ∉ cfList fm next ∧ c ∉ rest := by
          simp only [List.mem_append, List.mem_reverse] at hc
          exact ⟨fun hx => hc (Or.inl hx), fun hx => hc (Or.inr hx)⟩
        by_cases hcn : c = next
        · subst hcn
          constructor
          · intro hmem
            by_cases hq : q = c
            · rw [hq, cfList_step_self] at hmem
              cases hmem
            · rw [cfList_step_ne fm c s hq] at hmem
              exact absurd hmem (hnl c (by simp) q)
          · intro hbc
            rw [btp_step_self] at hbc
            cases hbc
        · have hcnw : c ∉ next :: rest := by
            intro hin
            rcases List.mem_cons.mp hin with hh | hh
            · exact hcn hh
            · exact hcmem.2 hh
          rw [btp_step_ne fm next s hcn]
          by_cases hq : q = next
          · rw [hq, cfList_step_self]
            constructor
            · intro hmem
              cases hmem
            · intro hbc
              have := (hpi c hcnw next).mpr hbc
              exact absurd this hcmem.1
          · rw [cfList_step_ne fm next s hq]
            exact hpi c hcnw q
      · -- NotInLists for the stepped state
        intro x hx q
        have hx' : x ∈ (cfList fm next).reverse ∨ x ∈ rest := List.mem_append.mp hx
        by_cases hq : q = next
        · rw [hq, cfList_step_self]
          simp
        · rw [cfList_step_ne fm next s hq]
          rcases hx' with hxc | hxr
          · have hxc' : x ∈ cfList fm next := List.mem_reverse.mp hxc
            have hxnwl : x ∉ next :: rest := hchild_not_wl x hxc'
            intro hmem
            have hbx : fm.blocks_to_parent.lookup x = some next :=
              (hpi x hxnwl next).mp hxc'
            have hbq : fm.blocks_to_parent.lookup x = some q :=
              (hpi x hxnwl q).mp hmem
            rw [hbx] at hbq
            exact hq (Option.some.inj hbq).symm
          · exact hnl x (by simp [hxr]) q

theorem discardLoop_inv {fm : ForkManager} {wl : List SlotHash} {fm' : ForkManager}
    (hok : discardLoop fm wl = .ok fm')
    (hpi : PartialInv fm wl) (hnl : NotInLists fm wl) : Inv fm' :=
  discardLoop_inv_aux (loopMeasure fm wl) (Nat.le_refl _) hok hpi hnl

end ForkManager

namespace ForkManager

theorem inv_new : Inv ForkManager.new := by
  intro c q
  constructor
  · intro hmem
    simp [cfList, new, Map.lookup] at hmem
  · intro hb
    simp [new, Map.lookup] at hb

theorem inv_get_new_ref {fm : ForkManager} {bh : BlockHeader} {fm1 : ForkManager}
    {i : SnapshotId} (hok : get_new_ref fm bh = .ok (fm1, i)) (hInv : Inv fm) : Inv fm1 := by
  obtain ⟨hnone, hid, hfm1⟩ := get_new_ref_ok_inv hok
  subst hfm1
  intro c q
  unfold cfList
  dsimp only
  by_cases hq : q = bh.prev_hash
  · rw [hq, Map.lookup_insert_self]
    by_cases hc : c = bh.hash
    · rw [hc, Map.lookup_insert_self]
      simp
    · rw [Map.lookup_insert_ne _ _ _ _ hc]
      simp only [Option.getD_some, List.mem_append, List.mem_singleton]
      constructor
      · rintro (hm | hm)
        · exact (hInv c bh.prev_hash).mp hm
        · exact absurd hm hc
      · intro hb
        exact Or.inl ((hInv c bh.prev_hash).mpr hb)
  · rw [Map.lookup_insert_ne _ _ _ _ hq]
    by_cases hc : c = bh.hash
    · rw [hc, Map.lookup_insert_self]
      constructor
      · intro hm
        have h2 := (hInv bh.hash q).mp hm
        rw [hnone] at h2
        cases h2
      · intro hb
        exact absurd (Option.some.inj hb).symm hq
    · rw [Map.lookup_insert_ne _ _ _ _ hc]
      exact hInv c q

theorem inv_add_snapshot {fm : ForkManager} {s : MockSnapshot} {fm1 : ForkManager}
    (hok : add_snapshot fm s = .ok fm1) (hInv : Inv fm) : Inv fm1 := by
  obtain ⟨bh, hl, hfm1⟩ := add_snapshot_ok_inv hok
  subst hfm1
  exact hInv

theorem inv_finalize {fm : ForkManager} {h : SlotHash} {fm' : ForkManager}
    (hok : finalize_snapshot fm h = .ok fm') (hInv : Inv fm) : Inv fm' := by
  unfold finalize_snapshot at hok
  split at hok
  · cases hok
  · rename_i s fm1 hrm
    obtain ⟨hs, hi, hfm1⟩ := remove_snapshot_ok hrm
    subst hfm1
    dsimp only [commit_snapshot] at hok
    split at hok
    · cases hok
      exact hInv
    · rename_i parent hb
      split at hok
      · cases hok
      · rename_i children hcf
        have hb' : fm.blocks_to_parent.lookup h = some parent := hb
        have hcf' : fm.chain_forks.lookup parent = some children := hcf
        have hchildren : ∀ c, c ∈ children ↔ fm.blocks_to_parent.lookup c = some parent := by
          intro c
          have := hInv c parent
          unfold cfList at this
          rw [hcf'] at this
          simpa using this
        have htd : ∀ x, x ∈ (children.filter (fun bh => decide (bh ≠ h))).reverse ↔
            (x ∈ children ∧ x ≠ h) := by
          intro x
          rw [List.mem_reverse, List.mem_filter]
          simp
        apply discardLoop_inv hok
        · -- PartialInv
          intro c hc q
          rw [htd c] at hc
          by_cases hch : c = h
          · subst hch
            constructor
            · intro hmem
              unfold cfList at hmem
              by_cases hq : q = parent
              · rw [hq] at hmem
                dsimp only at hmem
                rw [Map.lookup_erase_self] at hmem
                cases hmem
              · dsimp only at hmem
                rw [Map.lookup_erase_ne _ _ _ hq] at hmem
                have := (hInv c q).mp hmem
                rw [hb'] at this
                exact absurd (Option.some.inj this).symm hq
            · intro hbc
              dsimp only at hbc
              rw [Map.lookup_erase_self] at hbc
              cases hbc
          · have hbtp : (fm.blocks_to_parent.erase h).lookup c =
                fm.blocks_to_parent.lookup c := Map.lookup_erase_ne _ _ _ hch
            show c ∈ ((fm.chain_forks.erase parent).lookup q).getD [] ↔
              (fm.blocks_to_parent.erase h).lookup c = some q
            rw [hbtp]
            by_cases hq : q = parent
            · rw [hq, Map.lookup_erase_self]
              constructor
              · intro hmem
                cases hmem
              · intro hbc
                have hcch : c ∈ children := (hchildren c).mpr hbc
                exact absurd (And.intro hcch hch) (fun hx => hc (hx))
            · rw [Map.lookup_erase_ne _ _ _ hq]
              exact hInv c q
        · -- NotInLists
          intro x hx q
          rw [htd x] at hx
          have hbx : fm.blocks_to_parent.lookup x = some parent := (hchildren x).mp hx.1
          by_cases hq : q = parent
          · rw [hq]
            show x ∉ ((fm.chain_forks.erase parent).lookup parent).getD []
            rw [Map.lookup_erase_self]
            simp
          · show x ∉ ((fm.chain_forks.erase parent).lookup q).getD []
            rw [Map.lookup_erase_ne _ _ _ hq]
            intro hmem
            have := (hInv x q).mp hmem
            rw [hbx] at this
            exact hq (Option.some.inj this).symm

/-- States reachable through the manager's public operations, starting
from `ForkManager.new`, counting only calls that return normally. -/
inductive Reachable : ForkManager → Prop
  | new : Reachable ForkManager.new
  | get_ref (fm : ForkManager) (bh : BlockHeader) (fm' : ForkManager) (i : SnapshotId) :
      Reachable fm → get_new_ref fm bh = .ok (fm', i) → Reachable fm'
  | add_snap (fm : ForkManager) (s : MockSnapshot) (fm' : ForkManager) :
      Reachable fm → add_snapshot fm s = .ok fm' → Reachable fm'
  | finalize (fm : ForkManager) (h : SlotHash) (fm' : ForkManager) :
      Reachable fm → finalize_snapshot fm h = .ok fm' → Reachable fm'

/-- C3: after every sequence of manager operations, `chain_forks` and
`blocks_to_parent` remain mutual inverses: `c ∈ chain_forks[q]` iff
`blocks_to_parent[c] = q`. -/
theorem c3_chain_forks_blocks_to_parent_inverse (fm : ForkManager)
    (hr : Reachable fm) : Inv fm := by
  induction hr with
  | new => exact inv_new
  | get_ref fm0 bh fm1 i _ hok ih => exact inv_get_new_ref hok ih
  | add_snap fm0 s fm1 _ hok ih => exact inv_add_snapshot hok ih
  | finalize fm0 h fm1 _ hok ih => exact inv_finalize hok ih

end ForkManager

/-- Manager after registering blocks `1` and `2` (both children of `0`). -/
def fmB2 : ForkManager :=
  ⟨[], 0, ⟨[]⟩, ⟨[(0, [1, 2])]⟩, ⟨[(2, 0), (1, 0)]⟩, 2, ⟨[(2, 2), (1, 1)]⟩⟩

/-- `fmB2` with the snapshot for block `1` attached. -/
def fmB3 : ForkManager :=
  ⟨[], 0, ⟨[(1, ⟨1, ⟨[]⟩, ⟨[]⟩⟩)]⟩, ⟨[(0, [1, 2])]⟩, ⟨[(2, 0), (1, 0)]⟩, 2,
   ⟨[(2, 2), (1, 1)]⟩⟩

/-- `fmB3` with the snapshot for block `2` attached. -/
def fmB4 : ForkManager :=
  ⟨[], 0, ⟨[(2, ⟨2, ⟨[]⟩, ⟨[]⟩⟩), (1, ⟨1, ⟨[]⟩, ⟨[]⟩⟩)]⟩, ⟨[(0, [1, 2])]⟩,
   ⟨[(2, 0), (1, 0)]⟩, 2, ⟨[(2, 2), (1, 1)]⟩⟩

/-- `fmB4` after finalizing block `1` (block `2` swept as a sibling). -/
def fmB5 : ForkManager :=
  ⟨[⟨1, ⟨[]⟩, ⟨[]⟩⟩], 1, ⟨[]⟩, ⟨[]⟩, ⟨[]⟩, 2, ⟨[]⟩⟩

/-- Intermediate state of `finalize_snapshot fmB4 1` just before the
sibling sweep. -/
def fmMid : ForkManager :=
  ⟨[⟨1, ⟨[]⟩, ⟨[]⟩⟩], 1, ⟨[(2, ⟨2, ⟨[]⟩, ⟨[]⟩⟩)]⟩, ⟨[]⟩, ⟨[(2, 0)]⟩, 2, ⟨[(2, 2)]⟩⟩

theorem finalize_fmB4 : ForkManager.finalize_snapshot fmB4 1 = .ok fmB5 := by
  rw [@ForkManager.finalize_with_parent_eq fmB4 1 ⟨1, ⟨[]⟩, ⟨[]⟩⟩ 1 0 [1, 2]
    rfl rfl rfl rfl]
  show ForkManager.discardLoop fmMid [2] = _
  rw [@ForkManager.discardLoop_cons_eq fmMid 2 [] 0 ⟨2, ⟨[]⟩, ⟨[]⟩⟩ 2 rfl rfl rfl]
  show ForkManager.discardLoop _ [] = _
  rw [ForkManager.discardLoop]
  rfl

theorem c3_witness : ForkManager.Inv fmB5 := by
  apply ForkManager.c3_chain_forks_blocks_to_parent_inverse
  exact ForkManager.Reachable.finalize fmB4 1 fmB5
    (ForkManager.Reachable.add_snap fmB3 ⟨2, ⟨[]⟩, ⟨[]⟩⟩ fmB4
      (ForkManager.Reachable.add_snap fmB2 ⟨1, ⟨[]⟩, ⟨[]⟩⟩ fmB3
        (ForkManager.Reachable.get_ref fmA ⟨2, 0⟩ fmB2 2
          (ForkManager.Reachable.get_ref ForkManager.new ⟨1, 0⟩ fmA 1
            ForkManager.Reachable.new rfl)
          rfl)
        rfl)
      rfl)
    finalize_fmB4

namespace ForkManager

/-- Fork forests built by `get_new_ref` and `add_snapshot` alone (the
setting of the sibling-pruning claim: nothing finalized yet). -/
inductive Built : ForkManager → Prop
  | new : Built ForkManager.new
  | get_ref (fm : ForkManager) (bh : BlockHeader) (fm' : ForkManager) (i : SnapshotId) :
      Built fm → get_new_ref fm bh = .ok (fm', i) → Built fm'
  | add_snap (fm : ForkManager) (s : MockSnapshot) (fm' : ForkManager) :
      Built fm → add_snapshot fm s = .ok fm' → Built fm'

/-- `x` is `s` or a descendant of `s` through `blocks_to_parent` edges. -/
inductive DescOf (fm : ForkManager) (s : SlotHash) : SlotHash → Prop
  | refl : DescOf fm s s
  | step {p c : SlotHash} : DescOf fm s p → fm.blocks_to_parent.lookup c = some p →
      DescOf fm s c

/-- Every registered block has a snapshot attached ("all blocks are
Pending"). -/
def AllPending (fm : ForkManager) : Prop :=
  ∀ c q, fm.blocks_to_parent.lookup c = some q → (fm.snapshots.lookup c).isSome

/-- A rank function certifying that the parent graph is a forest (each
parent edge strictly decreases the rank). -/
def RankOk (fm : ForkManager) (rank : SlotHash → Nat) : Prop :=
  ∀ c q, fm.blocks_to_parent.lookup c = some q → rank q < rank c

/-- `x` belongs to the subtree of some sibling of `C` under parent `P`. -/
def SibDesc (fm : ForkManager) (C P x : SlotHash) : Prop :=
  ∃ sib, sib ∈ cfList fm P ∧ sib ≠ C ∧ DescOf fm sib x

/-- Structural invariants of every `Built` state. -/
structure BuiltInv (fm : ForkManager) : Prop where
  inv : Inv fm
  nodupLists : ∀ q, (cfList fm q).Nodup
  idsCoh : ∀ h s, fm.snapshots.lookup h = some s →
    fm.snapshot_id_to_block_hash.lookup s.id = some h
  idsLe : ∀ i h, fm.snapshot_id_to_block_hash.lookup i = some h →
    i ≤ fm.latest_snapshot_id
  idsReg : ∀ i h, fm.snapshot_id_to_block_hash.lookup i = some h →
    (fm.blocks_to_parent.lookup h).isSome
  valueInj : ∀ i j h, fm.snapshot_id_to_block_hash.lookup i = some h →
    fm.snapshot_id_to_block_hash.lookup j = some h → i = j
  snapReg : ∀ h s, fm.snapshots.lookup h = some s →
    (fm.blocks_to_parent.lookup h).isSome
  cfNonempty : ∀ q l, fm.chain_forks.lookup q = some l → l ≠ []

theorem builtInv_new : BuiltInv ForkManager.new := by
  refine ⟨inv_new, ?_, ?_, ?_, ?_, ?_, ?_, ?_⟩
  · intro q
    simp [cfList, new, Map.lookup]
  · intro h s hls
    simp [new, Map.lookup] at hls
  · intro i h hih
    simp [new, Map.lookup] at hih
  · intro i h hih
    simp [new, Map.lookup] at hih
  · intro i j h hi hj
    simp [new, Map.lookup] at hi
  · intro h s hls
    simp [new, Map.lookup] at hls
  · intro q l hql
    simp [new, Map.lookup] at hql

theorem builtInv_get_new_ref {fm : ForkManager} {bh : BlockHeader} {fm1 : ForkManager}
    {i : SnapshotId} (hok : get_new_ref fm bh = .ok (fm1, i))
    (hbi : BuiltInv fm) : BuiltInv fm1 := by
  have hinv1 := inv_get_new_ref hok hbi.inv
  obtain ⟨hnone, hid, hfm1⟩ := get_new_ref_ok_inv hok
  subst hfm1
  refine ⟨hinv1, ?_, ?_, ?_, ?_, ?_, ?_, ?_⟩
  · -- nodupLists
    intro q
    unfold cfList
    dsimp only
    by_cases hq : q = bh.prev_hash
    · rw [hq, Map.lookup_insert_self]
      simp only [Option.getD_some]
      rw [List.nodup_append]
      refine ⟨hbi.nodupLists bh.prev_hash, List.nodup_singleton _, ?_⟩
      intro x hx hx2
      have hxh : x = bh.hash := by simpa using hx2
      rw [hxh] at hx
      have := (hbi.inv bh.hash bh.prev_hash).mp hx
      rw [hnone] at this
      cases this
    · rw [Map.lookup_insert_ne _ _ _ _ hq]
      exact hbi.nodupLists q
  · -- idsCoh
    intro h s hls
    dsimp only at hls ⊢
    have hcoh := hbi.idsCoh h s hls
    have hle := hbi.idsLe s.id h hcoh
    have hne : s.id ≠ fm.latest_snapshot_id + 1 := Nat.ne_of_lt (Nat.lt_succ_of_le hle)
    rw [Map.lookup_insert_ne _ _ _ _ hne]
    exact hcoh
  · -- idsLe
    intro j h hjh
    dsimp only at hjh ⊢
    by_cases hj : j = fm.latest_snapshot_id + 1
    · exact hj.le
    · rw [Map.lookup_insert_ne _ _ _ _ hj] at hjh
      have := hbi.idsLe j h hjh
      exact Nat.le_succ_of_le this
  · -- idsReg
    intro j h hjh
    dsimp only at hjh ⊢
    by_cases hh : h = bh.hash
    · rw [hh, Map.lookup_insert_self]
      rfl
    · rw [Map.lookup_insert_ne _ _ _ _ hh]
      by_cases hj : j = fm.latest_snapshot_id + 1
      · rw [hj, Map.lookup_insert_self] at hjh
        exact absurd (Option.some.inj hjh).symm hh
      · rw [Map.lookup_insert_ne _ _ _ _ hj] at hjh
        exact hbi.idsReg j h hjh
  · -- valueInj
    intro j k h hj hk
    dsimp only at hj hk
    by_cases hjn : j = fm.latest_snapshot_id + 1 <;>
      by_cases hkn : k = fm.latest_snapshot_id + 1
    · rw [hjn, hkn]
    · rw [hjn, Map.lookup_insert_self] at hj
      rw [Map.lookup_insert_ne _ _ _ _ hkn] at hk
      have hh : h = bh.hash := (Option.some.inj hj).symm
      rw [hh] at hk
      have := hbi.idsReg k bh.hash hk
      rw [hnone] at this
      cases this
    · rw [hkn, Map.lookup_insert_self] at hk
      rw [Map.lookup_insert_ne _ _ _ _ hjn] at hj
      have hh : h = bh.hash := (Option.some.inj hk).symm
      rw [hh] at hj
      have := hbi.idsReg j bh.hash hj
      rw [hnone] at this
      cases this
    · rw [Map.lookup_insert_ne _ _ _ _ hjn] at hj
      rw [Map.lookup_insert_ne _ _ _ _ hkn] at hk
      exact hbi.valueInj j k h hj hk
  · -- snapReg
    intro h s hls
    dsimp only at hls ⊢
    by_cases hh : h = bh.hash
    · rw [hh, Map.lookup_insert_self]
      rfl
    · rw [Map.lookup_insert_ne _ _ _ _ hh]
      exact hbi.snapReg h s hls
  · -- cfNonempty
    intro q l hql
    dsimp only at hql
    by_cases hq : q = bh.prev_hash
    · rw [hq, Map.lookup_insert_self] at hql
      have := Option.some.inj hql
      intro hnil
      rw [hnil] at this
      exact absurd this.symm (by simp)
    · rw [Map.lookup_insert_ne _ _ _ _ hq] at hql
      exact hbi.cfNonempty q l hql

theorem builtInv_add_snapshot {fm : ForkManager} {s : MockSnapshot} {fm1 : ForkManager}
    (hok : add_snapshot fm s = .ok fm1) (hbi : BuiltInv fm) : BuiltInv fm1 := by
  obtain ⟨bh, hl, hfm1⟩ := add_snapshot_ok_inv hok
  subst hfm1
  refine ⟨hbi.inv, hbi.nodupLists, ?_, hbi.idsLe, hbi.idsReg, hbi.valueInj, ?_,
    hbi.cfNonempty⟩
  · -- idsCoh
    intro h s' hls
    dsimp only at hls ⊢
    by_cases hh : h = bh
    · rw [hh, Map.lookup_insert_self] at hls
      have hss : s = s' := Option.some.inj hls
      rw [← hss, hh]
      exact hl
    · rw [Map.lookup_insert_ne _ _ _ _ hh] at hls
      exact hbi.idsCoh h s' hls
  · -- snapReg
    intro h s' hls
    dsimp only at hls ⊢
    by_cases hh : h = bh
    · rw [hh]
      exact hbi.idsReg s.id bh hl
    · rw [Map.lookup_insert_ne _ _ _ _ hh] at hls
      exact hbi.snapReg h s' hls

theorem built_inv {fm : ForkManager} (h : Built fm) : BuiltInv fm := by
  induction h with
  | new => exact builtInv_new
  | get_ref fm0 bh fm1 i _ hok ih => exact builtInv_get_new_ref hok ih
  | add_snap fm0 s fm1 _ hok ih => exact builtInv_add_snapshot hok ih

end ForkManager

namespace ForkManager

/-- Parent-to-child edge of the `chain_forks` adjacency map. -/
def Edge (fm : ForkManager) (q c : SlotHash) : Prop :=
  c ∈ cfList fm q

/-- Reachability through `chain_forks` child lists. -/
def Reach (fm : ForkManager) : SlotHash → SlotHash → Prop :=
  Relation.ReflTransGen (Edge fm)

/-- All three fork-forest maps have lost their binding for `x`. -/
def Removed (fmR : ForkManager) (x : SlotHash) : Prop :=
  fmR.snapshots.lookup x = none ∧ fmR.blocks_to_parent.lookup x = none ∧
    fmR.chain_forks.lookup x = none

theorem submap_lookup_none {α β : Type} [DecidableEq α] {m m' : Map α β}
    (hsub : Map.Submap m m') {k : α} (hn : m'.lookup k = none) : m.lookup k = none := by
  cases hl : m.lookup k with
  | none => rfl
  | some v =>
    rw [hsub k v hl] at hn
    cases hn

theorem discardLoop_nil (fm : ForkManager) : discardLoop fm [] = .ok fm := by
  unfold discardLoop
  rfl

theorem reach_transfer {fm : ForkManager} {next : SlotHash} {s : MockSnapshot}
    (hnotgt : ∀ q, next ∉ cfList fm q) {w x : SlotHash} (hw : w ≠ next)
    (h : Reach fm w x) : Reach (discardStep fm next s) w x ∧ x ≠ next := by
  induction h with
  | refl => exact ⟨Relation.ReflTransGen.refl, hw⟩
  | tail hwy hyx ih =>
    rename_i y z
    obtain ⟨hy3, hyne⟩ := ih
    have hzne : z ≠ next := by
      intro hc
      rw [hc] at hyx
      exact hnotgt y hyx
    have hedge3 : Edge (discardStep fm next s) y z := by
      unfold Edge
      rw [cfList_step_ne fm next s hyne]
      exact hyx
    exact ⟨hy3.tail hedge3, hzne⟩

theorem step_partialInv {fm : ForkManager} {next : SlotHash} {rest : List SlotHash}
    (s : MockSnapshot) (hpi : PartialInv fm (next :: rest))
    (hnl : NotInLists fm (next :: rest)) :
    PartialInv (discardStep fm next s)
      (((fm.chain_forks.lookup next).getD []).reverse ++ rest) := by
  intro c hc q
  have hcmem : c ∉ cfList fm next ∧ c ∉ rest := by
    simp only [List.mem_append, List.mem_reverse] at hc
    exact ⟨fun hx => hc (Or.inl hx), fun hx => hc (Or.inr hx)⟩
  by_cases hcn : c = next
  · constructor
    · intro hmem
      by_cases hq : q = next
      · rw [hq, cfList_step_self] at hmem
        cases hmem
      · rw [cfList_step_ne fm next s hq] at hmem
        rw [hcn] at hmem
        exact absurd hmem (hnl next (by simp) q)
    · intro hbc
      rw [hcn, btp_step_self] at hbc
      cases hbc
  · have hcnw : c ∉ next :: rest := by
      intro hin
      rcases List.mem_cons.mp hin with hh | hh
      · exact hcn hh
      · exact hcmem.2 hh
    rw [btp_step_ne fm next s hcn]
    by_cases hq : q = next
    · rw [hq, cfList_step_self]
      constructor
      · intro hmem
        cases hmem
      · intro hbc
        have := (hpi c hcnw next).mpr hbc
        exact absurd this hcmem.1
    · rw [cfList_step_ne fm next s hq]
      exact hpi c hcnw q

theorem step_notInLists {fm : ForkManager} {next : SlotHash} {rest : List SlotHash}
    (s : MockSnapshot) (hpi : PartialInv fm (next :: rest))
    (hnl : NotInLists fm (next :: rest)) :
    NotInLists (discardStep fm next s)
      (((fm.chain_forks.lookup next).getD []).reverse ++ rest) := by
  intro x hx q
  have hx' : x ∈ (cfList fm next).reverse ∨ x ∈ rest := List.mem_append.mp hx
  by_cases hq : q = next
  · rw [hq, cfList_step_self]
    simp
  · rw [cfList_step_ne fm next s hq]
    rcases hx' with hxc | hxr
    · have hxc' : x ∈ cfList fm next := List.mem_reverse.mp hxc
      have hxnwl : x ∉ next :: rest := fun hin => hnl x hin next hxc'
      intro hmem
      have hbx : fm.blocks_to_parent.lookup x = some next := (hpi x hxnwl next).mp hxc'
      have hbq : fm.blocks_to_parent.lookup x = some q := (hpi x hxnwl q).mp hmem
      rw [hbx] at hbq
      exact hq (Option.some.inj hbq).symm
    · exact hnl x (by simp [hxr]) q

theorem discardLoop_master_aux (rank : SlotHash → Nat) :
    ∀ n, ∀ {fm : ForkManager} {wl : List SlotHash},
      loopMeasure fm wl ≤ n →
      wl.Nodup →
      (∀ x ∈ wl, (fm.blocks_to_parent.lookup x).isSome) →
      NotInLists fm wl →
      PartialInv fm wl →
      (∀ c q, fm.blocks_to_parent.lookup c = some q → (fm.snapshots.lookup c).isSome) →
      (∀ h s, fm.snapshots.lookup h = some s →
        fm.snapshot_id_to_block_hash.lookup s.id = some h) →
      (∀ q, (cfList fm q).Nodup) →
      RankOk fm rank →
      ∃ fm', discardLoop fm wl = .ok fm' ∧ Shrink fm' fm ∧
        ∀ x, (∃ w ∈ wl, Reach fm w x) →
          Removed fm' x ∧
            ∀ s, fm.snapshots.lookup x = some s →
              fm'.snapshot_id_to_block_hash.lookup s.id = none := by
  intro n
  induction n with
  | zero =>
    intro fm wl hm hnd hready hnl hpi hpend hcoh hnds hrank
    cases wl with
    | nil =>
      refine ⟨fm, discardLoop_nil fm, shrink_self fm, ?_⟩
      rintro x ⟨w, hw, _⟩
      cases hw
    | cons a rest => simp [loopMeasure] at hm
  | succ n ih =>
    intro fm wl hm hnd hready hnl hpi hpend hcoh hnds hrank
    cases wl with
    | nil =>
      refine ⟨fm, discardLoop_nil fm, shrink_self fm, ?_⟩
      rintro x ⟨w, hw, _⟩
      cases hw
    | cons next rest =>
      obtain ⟨pv, hb⟩ : ∃ pv, fm.blocks_to_parent.lookup next = some pv := by
        have := hready next (by simp)
        cases hj : fm.blocks_to_parent.lookup next with
        | none => rw [hj] at this; cases this
        | some pv => exact ⟨pv, rfl⟩
      obtain ⟨s, hs⟩ : ∃ s, fm.snapshots.lookup next = some s := by
        have := hpend next pv hb
        cases hj : fm.snapshots.lookup next with
        | none => rw [hj] at this; cases this
        | some s => exact ⟨s, rfl⟩
      have hin : fm.snapshot_id_to_block_hash.lookup s.id = some next := hcoh next s hs
      have heq := discardLoop_cons_eq rest hb hs hin
      have hnnotrest : next ∉ rest := (List.nodup_cons.mp hnd).1
      have hrestnd : rest.Nodup := (List.nodup_cons.mp hnd).2
      have hnextnolist : ∀ q, next ∉ cfList fm q := fun q => hnl next (by simp) q
      have hchildnotwl : ∀ c, c ∈ cfList fm next → c ∉ next :: rest :=
        fun c hc hcwl => hnl c hcwl next hc
      have hmeas : loopMeasure (discardStep fm next s)
          (((fm.chain_forks.lookup next).getD []).reverse ++ rest) ≤ n := by
        have := @loopMeasure_step fm next s rest
        omega
      have hnd1 : (((fm.chain_forks.lookup next).getD []).reverse ++ rest).Nodup := by
        rw [List.nodup_append]
        refine ⟨List.nodup_reverse.mpr (hnds next), hrestnd, ?_⟩
        intro a ha har
        have hac : a ∈ cfList fm next := List.mem_reverse.mp ha
        exact hchildnotwl a hac (by simp [har])
      have hready1 : ∀ x ∈ ((fm.chain_forks.lookup next).getD []).reverse ++ rest,
          ((discardStep fm next s).blocks_to_parent.lookup x).isSome := by
        intro x hx
        rcases List.mem_append.mp hx with hxc | hxr
        · have hxc' : x ∈ cfList fm next := List.mem_reverse.mp hxc
          have hxnwl : x ∉ next :: rest := hchildnotwl x hxc'
          have hxn : x ≠ next := by
            intro hcc
            rw [hcc] at hxc'
            exact hnextnolist next hxc'
          rw [btp_step_ne fm next s hxn]
          rw [(hpi x hxnwl next).mp hxc']
          rfl
        · have hxn : x ≠ next := fun hcc => hnnotrest (hcc ▸ hxr)
          rw [btp_step_ne fm next s hxn]
          exact hready x (by simp [hxr])
      have hnl1 := step_notInLists s hpi hnl
      have hpi1 := step_partialInv s hpi hnl
      have hpend1 : ∀ c q, (discardStep fm next s).blocks_to_parent.lookup c = some q →
          ((discardStep fm next s).snapshots.lookup c).isSome := by
        intro c q hbc
        by_cases hc : c = next
        · rw [hc, btp_step_self] at hbc
          cases hbc
        · rw [btp_step_ne fm next s hc] at hbc
          show ((fm.snapshots.erase next).lookup c).isSome
          rw [Map.lookup_erase_ne _ _ _ hc]
          exact hpend c q hbc
      have hcoh1 : ∀ h s', (discardStep fm next s).snapshots.lookup h = some s' →
          (discardStep fm next s).snapshot_id_to_block_hash.lookup s'.id = some h := by
        intro h s' hls
        by_cases hh : h = next
        · rw [hh] at hls
          have hls2 : (fm.snapshots.erase next).lookup next = some s' := hls
          rw [Map.lookup_erase_self] at hls2
          cases hls2
        · have hls' : fm.snapshots.lookup h = some s' := by
            have : (fm.snapshots.erase next).lookup h = fm.snapshots.lookup h :=
              Map.lookup_erase_ne _ _ _ hh
            rw [← this]
            exact hls
          have hidl := hcoh h s' hls'
          have hne : s'.id ≠ s.id := by
            intro hcc
            rw [hcc, hin] at hidl
            exact hh (Option.some.inj hidl).symm
          show (fm.snapshot_id_to_block_hash.erase s.id).lookup s'.id = some h
          rw [Map.lookup_erase_ne _ _ _ hne]
          exact hidl
      have hnds1 : ∀ q, (cfList (discardStep fm next s) q).Nodup := by
        intro q
        by_cases hq : q = next
        · rw [hq, cfList_step_self]
          exact List.nodup_nil
        · rw [cfList_step_ne fm next s hq]
          exact hnds q
      have hrank1 : RankOk (discardStep fm next s) rank := by
        intro c q hbc
        by_cases hc : c = next
        · rw [hc, btp_step_self] at hbc
          cases hbc
        · rw [btp_step_ne fm next s hc] at hbc
          exact hrank c q hbc
      obtain ⟨fm', hok', hshrink', hrem'⟩ :=
        ih hmeas hnd1 hready1 hnl1 hpi1 hpend1 hcoh1 hnds1 hrank1
      have hstepShrink : Shrink (discardStep fm next s) fm :=
        ⟨Map.submap_erase _ _, Map.submap_erase _ _, Map.submap_erase _ _,
         Map.submap_erase _ _⟩
      refine ⟨fm', ?_, shrink_comp hshrink' hstepShrink, ?_⟩
      · rw [heq]
        exact hok'
      · rintro x ⟨w, hwmem, hreach⟩
        have hxresult : (x = next) ∨
            ∃ w', w' ∈ ((fm.chain_forks.lookup next).getD []).reverse ++ rest ∧
              Reach (discardStep fm next s) w' x ∧ x ≠ next := by
          rcases List.mem_cons.mp hwmem with hwn | hwrest
          · rw [hwn] at hreach
            rcases Relation.ReflTransGen.cases_head hreach with hxn | ⟨c, hedge, hcx⟩
            · exact Or.inl hxn.symm
            · have hcchild : c ∈ cfList fm next := hedge
              have hcne : c ≠ next := by
                intro hcc
                rw [hcc] at hcchild
                exact hnextnolist next hcchild
              obtain ⟨hreach3, hxne⟩ := reach_transfer hnextnolist hcne hcx
              refine Or.inr ⟨c, ?_, hreach3, hxne⟩
              exact List.mem_append.mpr (Or.inl (List.mem_reverse.mpr hcchild))
          · have hwne : w ≠ next := fun hcc => hnnotrest (hcc ▸ hwrest)
            obtain ⟨hreach3, hxne⟩ := reach_transfer hnextnolist hwne hreach
            exact Or.inr ⟨w, List.mem_append.mpr (Or.inr hwrest), hreach3, hxne⟩
        rcases hxresult with hxn | ⟨w', hw'mem, hreach3, hxne⟩
        · subst hxn
          constructor
          · refine ⟨?_, ?_, ?_⟩
            · exact submap_lookup_none hshrink'.1 (Map.lookup_erase_self _ _)
            · exact submap_lookup_none hshrink'.2.2.1 (Map.lookup_erase_self _ _)
            · exact submap_lookup_none hshrink'.2.1 (Map.lookup_erase_self _ _)
          · intro s' hxs'
            rw [hs] at hxs'
            have hss : s = s' := Option.some.inj hxs'
            rw [← hss]
            exact submap_lookup_none hshrink'.2.2.2 (Map.lookup_erase_self _ _)
        · have hres := hrem' x ⟨w', hw'mem, hreach3⟩
          refine ⟨hres.1, ?_⟩
          intro s' hxs'
          apply hres.2
          show (fm.snapshots.erase next).lookup x = some s'
          rw [Map.lookup_erase_ne _ _ _ hxne]
          exact hxs'

end ForkManager

namespace ForkManager

theorem rank_le_of_desc {fm : ForkManager} {rank : SlotHash → Nat}
    (hrank : RankOk fm rank) {s x : SlotHash} (hd : DescOf fm s x) :
    rank s ≤ rank x := by
  induction hd with
  | refl => exact Nat.le_refl _
  | step hdp hbc ih =>
    rename_i p c
    exact Nat.le_of_lt (Nat.lt_of_le_of_lt ih (hrank c p hbc))

theorem sibdesc_ne {fm : ForkManager} {rank : SlotHash → Nat}
    (hrank : RankOk fm rank) (hInv : Inv fm) {C P x : SlotHash}
    (hCP : fm.blocks_to_parent.lookup C = some P) (hx : SibDesc fm C P x) : x ≠ C := by
  rintro rfl
  obtain ⟨sib, hsibmem, hsibne, hdesc⟩ := hx
  have hsibbtp : fm.blocks_to_parent.lookup sib = some P := (hInv sib P).mp hsibmem
  cases hdesc with
  | refl => exact hsibne rfl
  | step hdp hbc =>
    rename_i p
    rw [hCP] at hbc
    have hpP : p = P := (Option.some.inj hbc).symm
    rw [hpP] at hdp
    have h2 := rank_le_of_desc hrank hdp
    have h1 := hrank sib P hsibbtp
    omega

/-- State of `finalize_snapshot fm C` (parent `P`, snapshot `sC`) right
before the sibling sweep starts. -/
def finalizeMid (fm : ForkManager) (C P : SlotHash) (sC : MockSnapshot) : ForkManager :=
  { fm with
     snapshots := fm.snapshots.erase C
     snapshot_id_to_block_hash := fm.snapshot_id_to_block_hash.erase sC.id
     committed := fm.committed ++ [sC]
     version := fm.version + 1
     blocks_to_parent := fm.blocks_to_parent.erase C
     chain_forks := fm.chain_forks.erase P }

theorem finalizeMid_btp (fm : ForkManager) (C P : SlotHash) (sC : MockSnapshot) :
    (finalizeMid fm C P sC).blocks_to_parent = fm.blocks_to_parent.erase C := rfl

theorem finalizeMid_cf (fm : ForkManager) (C P : SlotHash) (sC : MockSnapshot) :
    (finalizeMid fm C P sC).chain_forks = fm.chain_forks.erase P := rfl

theorem finalizeMid_snap (fm : ForkManager) (C P : SlotHash) (sC : MockSnapshot) :
    (finalizeMid fm C P sC).snapshots = fm.snapshots.erase C := rfl

theorem finalizeMid_ids (fm : ForkManager) (C P : SlotHash) (sC : MockSnapshot) :
    (finalizeMid fm C P sC).snapshot_id_to_block_hash =
      fm.snapshot_id_to_block_hash.erase sC.id := rfl

theorem cfList_finalizeMid_self (fm : ForkManager) (C P : SlotHash) (sC : MockSnapshot) :
    cfList (finalizeMid fm C P sC) P = [] := by
  unfold cfList
  rw [finalizeMid_cf, Map.lookup_erase_self]
  rfl

theorem cfList_finalizeMid_ne (fm : ForkManager) (C P : SlotHash) (sC : MockSnapshot)
    {q : SlotHash} (hq : q ≠ P) :
    cfList (finalizeMid fm C P sC) q = cfList fm q := by
  unfold cfList
  rw [finalizeMid_cf, Map.lookup_erase_ne _ _ _ hq]

end ForkManager

namespace ForkManager

/-- C1: on a fork forest built by `get_new_ref`/`add_snapshot` in which
every registered block is pending (and whose parent edges form a forest,
witnessed by a rank function), finalizing child `C` of parent `P` succeeds
and removes every sibling subtree from `snapshots`, `blocks_to_parent` and
`chain_forks`; and when the forest consists of nothing beyond `C` and the
sibling subtrees (and `C` is childless), the manager is empty afterwards. -/
theorem c1_finalize_prunes_sibling_subtrees (fm : ForkManager) (hbuilt : Built fm)
    (rank : SlotHash → Nat) (hrank : RankOk fm rank) (hpend : AllPending fm)
    (C P : SlotHash) (hCP : fm.blocks_to_parent.lookup C = some P) :
    ∃ fm', finalize_snapshot fm C = .ok fm' ∧
      (∀ x, SibDesc fm C P x →
        fm'.snapshots.lookup x = none ∧ fm'.blocks_to_parent.lookup x = none ∧
          fm'.chain_forks.lookup x = none) ∧
      ((fm.chain_forks.lookup C = none ∧
          ∀ h, (fm.blocks_to_parent.lookup h).isSome → h = C ∨ SibDesc fm C P h) →
        fm'.is_empty = true) := by
  have binv := built_inv hbuilt
  obtain ⟨sC, hsC⟩ : ∃ sC, fm.snapshots.lookup C = some sC := by
    have := hpend C P hCP
    cases hj : fm.snapshots.lookup C with
    | none => rw [hj] at this; cases this
    | some sC => exact ⟨sC, rfl⟩
  have hiC : fm.snapshot_id_to_block_hash.lookup sC.id = some C := binv.idsCoh C sC hsC
  have hCin : C ∈ cfList fm P := (binv.inv C P).mpr hCP
  obtain ⟨children, hcfP⟩ : ∃ children, fm.chain_forks.lookup P = some children := by
    unfold cfList at hCin
    cases hj : fm.chain_forks.lookup P with
    | none =>
      rw [hj] at hCin
      simp at hCin
    | some l => exact ⟨l, rfl⟩
  have hchEq : cfList fm P = children := by
    unfold cfList
    rw [hcfP]
    rfl
  have heqfin : finalize_snapshot fm C =
      discardLoop (finalizeMid fm C P sC)
        ((children.filter (fun bh => decide (bh ≠ C))).reverse) :=
    finalize_with_parent_eq hsC hiC hCP hcfP
  have htd : ∀ x, x ∈ (children.filter (fun bh => decide (bh ≠ C))).reverse ↔
      (x ∈ children ∧ x ≠ C) := by
    intro x
    rw [List.mem_reverse, List.mem_filter]
    simp
  have hchnd : children.Nodup := hchEq ▸ binv.nodupLists P
  have cond_nd : ((children.filter (fun bh => decide (bh ≠ C))).reverse).Nodup :=
    List.nodup_reverse.mpr (hchnd.filter _)
  have hbtpmem : ∀ x, x ∈ children → fm.blocks_to_parent.lookup x = some P := by
    intro x hx
    exact (binv.inv x P).mp (by rw [hchEq]; exact hx)
  have cond_ready : ∀ x ∈ (children.filter (fun bh => decide (bh ≠ C))).reverse,
      ((finalizeMid fm C P sC).blocks_to_parent.lookup x).isSome := by
    intro x hx
    obtain ⟨hxc, hxC⟩ := (htd x).mp hx
    rw [finalizeMid_btp, Map.lookup_erase_ne _ _ _ hxC, hbtpmem x hxc]
    rfl
  have cond_nl : NotInLists (finalizeMid fm C P sC)
      ((children.filter (fun bh => decide (bh ≠ C))).reverse) := by
    intro x hx q
    obtain ⟨hxc, hxC⟩ := (htd x).mp hx
    by_cases hq : q = P
    · rw [hq, cfList_finalizeMid_self]
      simp
    · rw [cfList_finalizeMid_ne fm C P sC hq]
      intro hmem
      have hxq := (binv.inv x q).mp hmem
      rw [hbtpmem x hxc] at hxq
      exact hq (Option.some.inj hxq).symm
  have cond_pi : PartialInv (finalizeMid fm C P sC)
      ((children.filter (fun bh => decide (bh ≠ C))).reverse) := by
    intro c hc q
    by_cases hch : c = C
    · constructor
      · intro hmem
        by_cases hq : q = P
        · rw [hq, cfList_finalizeMid_self] at hmem
          cases hmem
        · rw [cfList_finalizeMid_ne fm C P sC hq] at hmem
          have hcq := (binv.inv c q).mp hmem
          rw [hch, hCP] at hcq
          exact absurd (Option.some.inj hcq).symm hq
      · intro hbc
        rw [hch, finalizeMid_btp, Map.lookup_erase_self] at hbc
        cases hbc
    · rw [finalizeMid_btp, Map.lookup_erase_ne _ _ _ hch]
      by_cases hq : q = P
      · rw [hq, cfList_finalizeMid_self]
        constructor
        · intro hmem
          cases hmem
        · intro hbc
          have hcc : c ∈ children := by
            rw [← hchEq]
            exact (binv.inv c P).mpr hbc
          exact absurd ((htd c).mpr ⟨hcc, hch⟩) hc
      · rw [cfList_finalizeMid_ne fm C P sC hq]
        exact binv.inv c q
  have cond_pend : ∀ c q, (finalizeMid fm C P sC).blocks_to_parent.lookup c = some q →
      ((finalizeMid fm C P sC).snapshots.lookup c).isSome := by
    intro c q hbc
    rw [finalizeMid_btp] at hbc
    by_cases hch : c = C
    · rw [hch, Map.lookup_erase_self] at hbc
      cases hbc
    · rw [Map.lookup_erase_ne _ _ _ hch] at hbc
      rw [finalizeMid_snap, Map.lookup_erase_ne _ _ _ hch]
      exact hpend c q hbc
  have cond_coh : ∀ h s', (finalizeMid fm C P sC).snapshots.lookup h = some s' →
      (finalizeMid fm C P sC).snapshot_id_to_block_hash.lookup s'.id = some h := by
    intro h s' hls
    rw [finalizeMid_snap] at hls
    by_cases hh : h = C
    · rw [hh, Map.lookup_erase_self] at hls
      cases hls
    · rw [Map.lookup_erase_ne _ _ _ hh] at hls
      have hcoh := binv.idsCoh h s' hls
      have hne : s'.id ≠ sC.id := by
        intro hcc
        rw [hcc, hiC] at hcoh
        exact hh (Option.some.inj hcoh).symm
      rw [finalizeMid_ids, Map.lookup_erase_ne _ _ _ hne]
      exact hcoh
  have cond_nds : ∀ q, (cfList (finalizeMid fm C P sC) q).Nodup := by
    intro q
    by_cases hq : q = P
    · rw [hq, cfList_finalizeMid_self]
      exact List.nodup_nil
    · rw [cfList_finalizeMid_ne fm C P sC hq]
      exact binv.nodupLists q
  have cond_rank : RankOk (finalizeMid fm C P sC) rank := by
    intro c q hbc
    rw [finalizeMid_btp] at hbc
    by_cases hch : c = C
    · rw [hch, Map.lookup_erase_self] at hbc
      cases hbc
    · rw [Map.lookup_erase_ne _ _ _ hch] at hbc
      exact hrank c q hbc
  obtain ⟨fm', hok, hshrink, hrem⟩ := discardLoop_master_aux rank
    (loopMeasure (finalizeMid fm C P sC)
      ((children.filter (fun bh => decide (bh ≠ C))).reverse))
    (Nat.le_refl _) cond_nd cond_ready cond_nl cond_pi cond_pend cond_coh cond_nds
    cond_rank
  have hsibTD : ∀ x, SibDesc fm C P x →
      (Removed fm' x ∧ ∀ s', fm.snapshots.lookup x = some s' →
        fm'.snapshot_id_to_block_hash.lookup s'.id = none) := by
    rintro x ⟨sib, hsibmem, hsibne, hdesc⟩
    have hsibbtp : fm.blocks_to_parent.lookup sib = some P := (binv.inv sib P).mp hsibmem
    have hsibch : sib ∈ children := by
      rw [← hchEq]
      exact hsibmem
    have hsibtd : sib ∈ (children.filter (fun bh => decide (bh ≠ C))).reverse :=
      (htd sib).mpr ⟨hsibch, hsibne⟩
    have hreach : Reach (finalizeMid fm C P sC) sib x := by
      induction hdesc with
      | refl => exact Relation.ReflTransGen.refl
      | step hdp hbc ih =>
        rename_i p c
        have hpP : p ≠ P := by
          intro hcc
          have h1 := hrank sib P hsibbtp
          have h2 := rank_le_of_desc hrank hdp
          rw [hcc] at h2
          omega
        have hedge : Edge (finalizeMid fm C P sC) p c := by
          unfold Edge
          rw [cfList_finalizeMid_ne fm C P sC hpP]
          exact (binv.inv c p).mpr hbc
        exact ih.tail hedge
    have hres := hrem x ⟨sib, hsibtd, hreach⟩
    refine ⟨hres.1, ?_⟩
    intro s' hxs'
    have hxC : x ≠ C := sibdesc_ne hrank binv.inv hCP ⟨sib, hsibmem, hsibne, hdesc⟩
    apply hres.2
    rw [finalizeMid_snap, Map.lookup_erase_ne _ _ _ hxC]
    exact hxs'
  refine ⟨fm', ?_, ?_, ?_⟩
  · rw [heqfin]
    exact hok
  · intro x hx
    exact (hsibTD x hx).1
  · rintro ⟨hcfC, hcover⟩
    have hsnapN : ∀ k, fm'.snapshots.lookup k = none := by
      intro k
      cases hlk : fm'.snapshots.lookup k with
      | none => rfl
      | some v =>
        exfalso
        have h4 := hshrink.1 k v hlk
        rw [finalizeMid_snap] at h4
        by_cases hkC : k = C
        · rw [hkC, Map.lookup_erase_self] at h4
          cases h4
        · rw [Map.lookup_erase_ne _ _ _ hkC] at h4
          have hbk := binv.snapReg k v h4
          rcases hcover k hbk with hc | hc
          · exact hkC hc
          · have hrmv := (hsibTD k hc).1.1
            rw [hlk] at hrmv
            cases hrmv
    have hbtpN : ∀ k, fm'.blocks_to_parent.lookup k = none := by
      intro k
      cases hlk : fm'.blocks_to_parent.lookup k with
      | none => rfl
      | some v =>
        exfalso
        have h4 := hshrink.2.2.1 k v hlk
        rw [finalizeMid_btp] at h4
        by_cases hkC : k = C
        · rw [hkC, Map.lookup_erase_self] at h4
          cases h4
        · rw [Map.lookup_erase_ne _ _ _ hkC] at h4
          have hbk : (fm.blocks_to_parent.lookup k).isSome := by
            rw [h4]
            rfl
          rcases hcover k hbk with hc | hc
          · exact hkC hc
          · have hrmv := (hsibTD k hc).1.2.1
            rw [hlk] at hrmv
            cases hrmv
    have hcfN : ∀ q, fm'.chain_forks.lookup q = none := by
      intro q
      cases hlq : fm'.chain_forks.lookup q with
      | none => rfl
      | some l =>
        exfalso
        have h4 := hshrink.2.1 q l hlq
        rw [finalizeMid_cf] at h4
        by_cases hqP : q = P
        · rw [hqP, Map.lookup_erase_self] at h4
          cases h4
        · rw [Map.lookup_erase_ne _ _ _ hqP] at h4
          have hlne := binv.cfNonempty q l h4
          obtain ⟨c, hcl⟩ := List.exists_mem_of_ne_nil l hlne
          have hcq : c ∈ cfList fm q := by
            unfold cfList
            rw [h4]
            exact hcl
          have hbc := (binv.inv c q).mp hcq
          have hbcs : (fm.blocks_to_parent.lookup c).isSome := by
            rw [hbc]
            rfl
          rcases hcover c hbcs with hc | hc
          · rw [hc, hCP] at hbc
            exact hqP (Option.some.inj hbc).symm
          · obtain ⟨sib, hsm, hsn, hdesc⟩ := hc
            cases hdesc with
            | refl =>
              have hbP := (binv.inv c P).mp hsm
              rw [hbP] at hbc
              exact hqP (Option.some.inj hbc).symm
            | step hdp hbc2 =>
              rename_i p
              rw [hbc] at hbc2
              have hqp : q = p := Option.some.inj hbc2
              have hSD : SibDesc fm C P p := ⟨sib, hsm, hsn, hdp⟩
              have hrmv := (hsibTD p hSD).1.2.2
              rw [hqp, hrmv] at hlq
              cases hlq
    have hidsN : ∀ i, fm'.snapshot_id_to_block_hash.lookup i = none := by
      intro i
      cases hli : fm'.snapshot_id_to_block_hash.lookup i with
      | none => rfl
      | some h =>
        exfalso
        have h4 := hshrink.2.2.2 i h hli
        rw [finalizeMid_ids] at h4
        by_cases hiCid : i = sC.id
        · rw [hiCid, Map.lookup_erase_self] at h4
          cases h4
        · rw [Map.lookup_erase_ne _ _ _ hiCid] at h4
          have hreg := binv.idsReg i h h4
          rcases hcover h hreg with hc | hc
          · rw [hc] at h4
            exact hiCid (binv.valueInj i sC.id C h4 hiC)
          · obtain ⟨qh, hqh⟩ : ∃ qh, fm.blocks_to_parent.lookup h = some qh := by
              cases hj : fm.blocks_to_parent.lookup h with
              | none => rw [hj] at hreg; cases hreg
              | some qh => exact ⟨qh, rfl⟩
            obtain ⟨sh, hsh⟩ : ∃ sh, fm.snapshots.lookup h = some sh := by
              have := hpend h qh hqh
              cases hj : fm.snapshots.lookup h with
              | none => rw [hj] at this; cases this
              | some sh => exact ⟨sh, rfl⟩
            have hcoh2 := binv.idsCoh h sh hsh
            have hieq : i = sh.id := binv.valueInj i sh.id h h4 hcoh2
            have hidsgone := (hsibTD h hc).2 sh hsh
            rw [hieq, hidsgone] at hli
            cases hli
    have e1 := (Map.isEmpty_iff fm'.chain_forks).mpr hcfN
    have e2 := (Map.isEmpty_iff fm'.blocks_to_parent).mpr hbtpN
    have e3 := (Map.isEmpty_iff fm'.snapshots).mpr hsnapN
    have e4 := (Map.isEmpty_iff fm'.snapshot_id_to_block_hash).mpr hidsN
    simp [is_empty, e1, e2, e3, e4]

end ForkManager

/-- Manager after registering `1 ← 0`, `2 ← 0`, `3 ← 2`. -/
def fmC1a : ForkManager :=
  ⟨[], 0, ⟨[]⟩, ⟨[(2, [3]), (0, [1, 2])]⟩, ⟨[(3, 2), (2, 0), (1, 0)]⟩, 3,
   ⟨[(3, 3), (2, 2), (1, 1)]⟩⟩

/-- `fmC1a` with block `1`'s snapshot attached. -/
def fmC1b : ForkManager :=
  ⟨[], 0, ⟨[(1, ⟨1, ⟨[]⟩, ⟨[]⟩⟩)]⟩, ⟨[(2, [3]), (0, [1, 2])]⟩,
   ⟨[(3, 2), (2, 0), (1, 0)]⟩, 3, ⟨[(3, 3), (2, 2), (1, 1)]⟩⟩

/-- `fmC1b` with block `2`'s snapshot attached. -/
def fmC1c : ForkManager :=
  ⟨[], 0, ⟨[(2, ⟨2, ⟨[]⟩, ⟨[]⟩⟩), (1, ⟨1, ⟨[]⟩, ⟨[]⟩⟩)]⟩, ⟨[(2, [3]), (0, [1, 2])]⟩,
   ⟨[(3, 2), (2, 0), (1, 0)]⟩, 3, ⟨[(3, 3), (2, 2), (1, 1)]⟩⟩

/-- Fully pending forest: children `1`, `2` of `0`, with `3` below `2`. -/
def fmC1d : ForkManager :=
  ⟨[], 0, ⟨[(3, ⟨3, ⟨[]⟩, ⟨[]⟩⟩), (2, ⟨2, ⟨[]⟩, ⟨[]⟩⟩), (1, ⟨1, ⟨[]⟩, ⟨[]⟩⟩)]⟩,
   ⟨[(2, [3]), (0, [1, 2])]⟩, ⟨[(3, 2), (2, 0), (1, 0)]⟩, 3,
   ⟨[(3, 3), (2, 2), (1, 1)]⟩⟩

theorem c1_witness :
    ∃ fm', ForkManager.finalize_snapshot fmC1d 1 = .ok fm' ∧
      (∀ x, ForkManager.SibDesc fmC1d 1 0 x →
        fm'.snapshots.lookup x = none ∧ fm'.blocks_to_parent.lookup x = none ∧
          fm'.chain_forks.lookup x = none) ∧
      ((fmC1d.chain_forks.lookup 1 = none ∧
          ∀ h, (fmC1d.blocks_to_parent.lookup h).isSome →
            h = 1 ∨ ForkManager.SibDesc fmC1d 1 0 h) →
        fm'.is_empty = true) := by
  refine ForkManager.c1_finalize_prunes_sibling_subtrees fmC1d ?_ (fun h => h) ?_ ?_ 1 0 rfl
  · exact ForkManager.Built.add_snap fmC1c ⟨3, ⟨[]⟩, ⟨[]⟩⟩ fmC1d
      (ForkManager.Built.add_snap fmC1b ⟨2, ⟨[]⟩, ⟨[]⟩⟩ fmC1c
        (ForkManager.Built.add_snap fmC1a ⟨1, ⟨[]⟩, ⟨[]⟩⟩ fmC1b
          (ForkManager.Built.get_ref fmB2 ⟨3, 2⟩ fmC1a 3
            (ForkManager.Built.get_ref fmA ⟨2, 0⟩ fmB2 2
              (ForkManager.Built.get_ref ForkManager.new ⟨1, 0⟩ fmA 1
                ForkManager.Built.new rfl)
              rfl)
            rfl)
          rfl)
        rfl)
      rfl
  · intro c q h
    have hm := Map.mem_of_lookup_eq_some h
    have hm' : (c, q) = ((3 : Nat), (2 : Nat)) ∨ (c, q) = (2, 0) ∨ (c, q) = (1, 0) := by
      simpa [fmC1d] using hm
    rcases hm' with he | he | he <;> rw [Prod.mk.injEq] at he <;>
      rw [he.1, he.2] <;> decide
  · intro c q h
    have hm := Map.mem_of_lookup_eq_some h
    have hm' : (c, q) = ((3 : Nat), (2 : Nat)) ∨ (c, q) = (2, 0) ∨ (c, q) = (1, 0) := by
      simpa [fmC1d] using hm
    rcases hm' with he | he | he <;> rw [Prod.mk.injEq] at he <;> rw [he.1] <;> rfl
